import Mathlib

/-!
# Horizon editing core: tool protocol, copy-placement and change-unit tools

A shallow embedding of `core/core.hpp` (tool events, tool responses, the base
`Core::property_is_settable`), `src/core/tool_copy_placement.cpp` and
`src/core/tool_change_unit.cpp`, followed by the theorems about them.

Conventions of the embedding.

* A `std::map<UUID, V>` is an association list `List (UUID × V)` in iteration
  (key) order; `at` is a lookup that may fail, a failed `at` is the C++
  `std::out_of_range` exception.
* A pointer to a map node is the key of that node.
* Stateful code is explicit state passing: a tool call takes the `Core` state
  and yields a `Run`: the state it left behind, the calls it made on the core
  and on the tool bar, in order, and how it finished (returned a response,
  threw, or dereferenced a null `Cores` pointer).
* `int`, `int64_t` coordinates and angles are unbounded `Int`.
-/

namespace horizon

/-! ## core.hpp: events and responses -/

/-- The 128-bit identifier; `0` is the null UUID (`operator bool` is false). -/
abbrev UUID := Nat

/-- Truth value of a UUID (`UUID::operator bool`): it is not the null UUID. -/
def UUID.toBool (u : UUID) : Bool := u != 0

/-- Enum `ToolEventType` of core.hpp. -/
inductive ToolEventType where
  | MOVE | CLICK | KEY | DATA
  deriving DecidableEq, Repr

/-- Enum `ToolID` of core.hpp. -/
inductive ToolID where
  | NONE | MOVE | PLACE_JUNCTION | DRAW_LINE
  | DELETE | DRAW_ARC | ROTATE | MIRROR | MAP_PIN | MAP_SYMBOL
  | DRAW_NET | ADD_COMPONENT | PLACE_TEXT | PLACE_NET_LABEL
  | DISCONNECT | BEND_LINE_NET | SELECT_NET_SEGMENT | SELECT_NET
  | PLACE_POWER_SYMBOL | MOVE_NET_SEGMENT | MOVE_NET_SEGMENT_NEW
  | EDIT_COMPONENT_PIN_NAMES | PLACE_BUS_LABEL | PLACE_BUS_RIPPER
  | MANAGE_BUSES | DRAW_POLYGON | ENTER_DATUM | MOVE_EXACTLY | PLACE_HOLE
  | PLACE_PAD | PASTE | ASSIGN_PART | MAP_PACKAGE | DRAW_TRACK | PLACE_VIA
  | ROUTE_TRACK | DRAG_KEEP_SLOPE | ADD_PART | ANNOTATE | SMASH | UNSMASH
  deriving DecidableEq, Repr

/-- Modelled from the spec: enum `ObjectType` (object_descr.hpp is not among the
sources). The variant tags the spec and the tools name; `INVALID` is the tag of
a default-constructed target. -/
inductive ObjectType where
  | INVALID | JUNCTION | LINE | ARC | TEXT | POLYGON | HOLE | VIA
  | SYMBOL_PIN | PAD | BOARD_PACKAGE
  deriving DecidableEq, Repr

/-- Modelled from the spec: a selectable reference (canvas/selectables.hpp is
not among the sources), "entity UUID + variant tag". -/
structure SelectableRef where
  uuid : UUID
  type : ObjectType
  deriving DecidableEq, Repr

/-- Integer coordinate pair (`Coordi`). -/
structure Coordi where
  x : Int
  y : Int
  deriving DecidableEq, Repr

instance : Add Coordi := ⟨fun a b => ⟨a.x + b.x, a.y + b.y⟩⟩
instance : Sub Coordi := ⟨fun a b => ⟨a.x - b.x, a.y - b.y⟩⟩

/-- The resolved entity under the cursor (canvas/target.hpp is not among the
sources): its variant tag and its UUID path, as the tools read them
(`target.type`, `target.path.at(0)`). -/
structure Target where
  type : ObjectType
  path : List UUID
  deriving DecidableEq, Repr

/-- Class `ToolArgs` of core.hpp. -/
structure ToolArgs where
  type : ToolEventType
  coords : Coordi
  selection : List SelectableRef
  keep_selection : Bool
  button : Nat
  key : Nat
  target : Target
  work_layer : Int
  deriving DecidableEq, Repr

/-- Class `ToolResponse` of core.hpp; the defaults are the member initialisers
`next_tool = ToolID::NONE`, `end_tool = false`, `layer = 10000`. -/
structure ToolResponse where
  next_tool : ToolID := ToolID.NONE
  end_tool : Bool := false
  layer : Int := 10000
  deriving DecidableEq, Repr

/-- The constructor `ToolResponse()`. -/
def ToolResponse.default : ToolResponse := {}

/-- Static `ToolResponse::end()`: `ToolResponse r; r.end_tool=true; return r;`. -/
def ToolResponse.end_ : ToolResponse :=
  let r : ToolResponse := {}
  { r with end_tool := true }

/-- Static `ToolResponse::change_layer(int l)`: `ToolResponse r; r.layer=l; return r;`. -/
def ToolResponse.change_layer (l : Int) : ToolResponse :=
  let r : ToolResponse := {}
  { r with layer := l }

/-- Static `ToolResponse::next(ToolID t)`:
`ToolResponse r; r.end_tool=true; r.next_tool = t; return r;`. -/
def ToolResponse.next (t : ToolID) : ToolResponse :=
  let r : ToolResponse := {}
  let r := { r with end_tool := true }
  { r with next_tool := t }

/-- Identifier of a property (`ObjectProperty::ID`, not among the sources). -/
abbrev ObjectPropertyID := Nat

/-- The base `Core::property_is_settable(uu, type, property, bool *handled = nullptr)`:
`if(handled){*handled=false;} return true;`. The out-parameter is `none` for a
null pointer and `some b` for a pointer to a `bool` holding `b`; the result is
the returned value and the pointee afterwards. -/
def Core.property_is_settable (_uu : UUID) (_type : ObjectType) (_property : ObjectPropertyID)
    (handled : Option Bool) : Bool × Option Bool :=
  let handled := match handled with
    | some _ => some false
    | none => none
  (true, handled)

/-! ## The documents the two tools edit

None of `board.hpp`, `board_package.hpp`, `component.hpp`, `placement.hpp`,
`symbol.hpp`, `unit.hpp`, `pool.hpp` is among the sources: the records below
carry the members the two tools read and write, and the bodies of the
`Placement` methods are parameters of the embedding. -/

/-- A component of the netlist, as the tool reads it through
`BoardPackage::component`: its `group` and its `tag`. -/
structure Component where
  group : UUID
  tag : UUID
  deriving DecidableEq, Repr

/-- State of a `Placement`: the public member `shift` and the state behind
`get_angle`/`set_angle`/`transform`. -/
structure Placement where
  shift : Coordi
  mirror : Bool
  angle : Int
  deriving DecidableEq, Repr

/-- The `Placement` members whose bodies are not among the sources, taken as
parameters: the default constructor, `get_angle()`, `set_angle(int)` (as the
placement it leaves behind) and `transform(Coordi)`. -/
structure PlacementMethods where
  init : Placement
  get_angle : Placement → Int
  set_angle : Placement → Int → Placement
  transform : Placement → Coordi → Coordi

/-- A package placed on the board. -/
structure BoardPackage where
  uuid : UUID
  component : Component
  placement : Placement
  deriving DecidableEq, Repr

/-- The board: `std::map<UUID, BoardPackage> packages`, in key order. -/
structure Board where
  packages : List (UUID × BoardPackage)
  deriving DecidableEq, Repr

/-- `packages.at(u)`, and the dereference of a pointer to the node with key `u`:
`none` is the `std::out_of_range` of a missing key. -/
def Board.at_ (brd : Board) (u : UUID) : Option BoardPackage :=
  brd.packages.lookup u

/-- A write through a pointer to the node with key `u`: the package stored
under `u` becomes `f` of itself, every other node is left alone. -/
def Board.modify (brd : Board) (u : UUID) (f : BoardPackage → BoardPackage) : Board :=
  { packages := brd.packages.map fun kv => if kv.1 = u then (kv.1, f kv.2) else kv }

/-- A pin of a pool unit, as the tool reads it: its `primary_name`. -/
structure Pin where
  primary_name : String
  deriving DecidableEq, Repr

/-- A pool unit: `std::map<UUID, Pin> pins`, in key order. -/
structure Unit where
  uuid : UUID
  pins : List (UUID × Pin)
  deriving DecidableEq, Repr

/-- A pin of a symbol: an entity record (its identity and its position). -/
structure SymbolPin where
  uuid : UUID
  position : Coordi
  deriving DecidableEq, Repr

/-- The symbol: the unit it represents (`const Unit *unit`, by value) and
`std::map<UUID, SymbolPin> pins`, in key order. -/
structure Symbol where
  unit : Unit
  pins : List (UUID × SymbolPin)
  deriving DecidableEq, Repr

/-- Modelled from the spec: the pool (pool.hpp is not among the sources), "a
read-only catalog of reusable parts/units/symbols that Tools may query by UUID;
lookup by UUID returns an immutable record or fails". -/
structure Pool where
  units : List (UUID × Unit)
  deriving DecidableEq, Repr

/-- Modelled from the spec: `Pool::get_unit`, a lookup by UUID that returns the
record or fails (`none`, an exception in the C++). -/
def Pool.get_unit (pool : Pool) (u : UUID) : Option Unit :=
  pool.units.lookup u

/-- The two copies a core holds, by concrete subtype: a board core
(`CoreBoard`, reached through `core.b`), a symbol core (`CoreSymbol`, reached
through `core.y`) or another core (both pointers null). The first component is
the non-working (stable) document, the second the working one. -/
inductive Docs where
  | board (brd brd_work : Board)
  | symbol (sym sym_work : Symbol)
  | other
  deriving DecidableEq, Repr

/-- Class `Core`: the two documents, the member `selection` and `m_pool`. -/
structure Core where
  docs : Docs
  selection : List SelectableRef
  m_pool : Pool
  deriving DecidableEq, Repr

/-- The pointer `core.b` with `get_board()` applied: the working board of a
board core, `none` when `core.b` is null. -/
def Core.b (core : Core) : Option Board :=
  match core.docs with
  | Docs.board _ brd_work => some brd_work
  | _ => none

/-- The pointer `core.y` with `get_symbol()` applied: the working symbol of a
symbol core, `none` when `core.y` is null. -/
def Core.y (core : Core) : Option Symbol :=
  match core.docs with
  | Docs.symbol _ sym_work => some sym_work
  | _ => none

/-- The state after the tool has written `brd` through `core.b->get_board()`. -/
def Core.set_board (core : Core) (brd : Board) : Core :=
  match core.docs with
  | Docs.board stable _ => { core with docs := Docs.board stable brd }
  | _ => core

/-- The state after the tool has written `sym` through `core.y->get_symbol()`. -/
def Core.set_symbol (core : Core) (sym : Symbol) : Core :=
  match core.docs with
  | Docs.symbol stable _ => { core with docs := Docs.symbol stable sym }
  | _ => core

/-- Modelled from the spec: `Core::commit()` is pure virtual in core.hpp and its
overrides are not among the sources; "commit makes stable := working". -/
def Core.commit (core : Core) : Core :=
  match core.docs with
  | Docs.board _ brd_work => { core with docs := Docs.board brd_work brd_work }
  | Docs.symbol _ sym_work => { core with docs := Docs.symbol sym_work sym_work }
  | Docs.other => core

/-- Modelled from the spec: `Core::revert()` is pure virtual in core.hpp and its
overrides are not among the sources; "revert makes working := stable". -/
def Core.revert (core : Core) : Core :=
  match core.docs with
  | Docs.board brd _ => { core with docs := Docs.board brd brd }
  | Docs.symbol sym _ => { core with docs := Docs.symbol sym sym }
  | Docs.other => core

/-- The invariant of the spec between tools: working is a value-equal copy of
stable. -/
def Core.synced (core : Core) : Prop :=
  match core.docs with
  | Docs.board brd brd_work => brd_work = brd
  | Docs.symbol sym sym_work => sym_work = sym
  | Docs.other => True

instance (core : Core) : Decidable core.synced := by
  unfold Core.synced; split <;> infer_instance

/-! ## What a tool call leaves behind -/

/-- A call a tool makes on the core, on the tool bar or on the dialogs. -/
inductive Call where
  | commit
  | revert
  | tool_bar_set_tip (s : String)
  | tool_bar_flash (s : String)
  | select_unit
  deriving DecidableEq, Repr

/-- How a call of `begin`/`update` finished: it returned a response, it left by
an exception (a failed `at`, a failed pool lookup), or it went through a null
`Cores` pointer. -/
inductive Outcome where
  | returned (r : ToolResponse)
  | thrown
  | null_deref
  deriving DecidableEq, Repr

/-- Result of running a tool entry point on a core state. -/
structure Run where
  core : Core
  calls : List Call
  outcome : Outcome
  deriving DecidableEq, Repr

/-- Number of `commit()` calls in a run. -/
def Run.commits (r : Run) : Nat := r.calls.count Call.commit

/-- Number of `revert()` calls in a run. -/
def Run.reverts (r : Run) : Nat := r.calls.count Call.revert

/-- The run returned a response whose `end_tool` is set. -/
def Run.ended (r : Run) : Bool :=
  match r.outcome with
  | Outcome.returned resp => resp.end_tool
  | _ => false

/-! ## tool_copy_placement.cpp -/

namespace ToolCopyPlacement

/-- `ToolCopyPlacement::can_begin()`: false when `core.b` is null, else whether
`std::count_if` over `core.r->selection` finds an entry of type
`BOARD_PACKAGE`. -/
def can_begin (core : Core) : Bool :=
  if core.b.isNone then false
  else decide (core.selection.countP (fun x => x.type == ObjectType.BOARD_PACKAGE) > 0)

/-- `ToolCopyPlacement::begin`: sets the tool bar tip and returns
`ToolResponse()`. -/
def begin (core : Core) (_args : ToolArgs) : Run :=
  { core := core
    calls := [Call.tool_bar_set_tip "LMB: pick reference RMB: cancel"]
    outcome := Outcome.returned ToolResponse.default }

/-- `std::set<BoardPackage *>::insert`: the set iterates in the order of the
pointers, `addr u` being the address of the map node with key `u`; a pointer
already in the set is not inserted again. -/
def ptr_insert (addr : UUID → Nat) (u : UUID) : List UUID → List UUID
  | [] => [u]
  | v :: rest =>
    if u = v then v :: rest
    else if addr u < addr v then u :: v :: rest
    else v :: ptr_insert addr u rest

/-- Lines 38-43: `target_pkgs`, filled from the selection; `none` when
`brd->packages.at(it.uuid)` throws. -/
def collect_target_pkgs (addr : UUID → Nat) (brd : Board) :
    List SelectableRef → List UUID → Option (List UUID)
  | [], acc => some acc
  | it :: rest, acc =>
    if it.type = ObjectType.BOARD_PACKAGE then
      match brd.at_ it.uuid with
      | none => none
      | some _ => collect_target_pkgs addr brd rest (ptr_insert addr it.uuid acc)
    else collect_target_pkgs addr brd rest acc

/-- Lines 45-51: `target_group`, the group of the first package of
`target_pkgs` whose component has a non-null group, else the null UUID. -/
def find_target_group (brd : Board) : List UUID → UUID
  | [] => 0
  | it :: rest =>
    match brd.at_ it with
    | some pkg =>
      if pkg.component.group.toBool then pkg.component.group
      else find_target_group brd rest
    | none => find_target_group brd rest

/-- Lines 59-65: `target_pkg`, the first package of `target_pkgs` whose
component tag is `ref_tag`, else the null pointer. -/
def find_target_pkg (brd : Board) (ref_tag : UUID) : List UUID → Option UUID
  | [] => none
  | it :: rest =>
    match brd.at_ it with
    | some pkg =>
      if pkg.component.tag = ref_tag then some it
      else find_target_pkg brd ref_tag rest
    | none => find_target_pkg brd ref_tag rest

/-- Lines 75-81: `this_ref_pkg`, the last package in map order whose component
has tag `tag` and group `ref_group`, else the null pointer. -/
def find_this_ref_pkg (packages : List (UUID × BoardPackage)) (tag ref_group : UUID) :
    Option UUID :=
  packages.foldl
    (fun this_ref_pkg it_ref =>
      if it_ref.2.component.tag = tag ∧ it_ref.2.component.group = ref_group then some it_ref.1
      else this_ref_pkg)
    none

/-- Lines 74-91, the body of the loop over `target_pkgs` for the pointer `it`:
every read goes through the board as it is at that point. The `none` branches
of the dereferences stand for dangling pointers, which do not arise: the
pointers were taken from the map and no node is added or removed. -/
def copy_step (P : PlacementMethods) (pkg_uuid target_pkg ref_group : UUID)
    (brd : Board) (it : UUID) : Board :=
  if it ≠ target_pkg then
    match brd.at_ it with
    | none => brd
    | some it_pkg =>
      match find_this_ref_pkg brd.packages it_pkg.component.tag ref_group with
      | none => brd
      | some this_ref_pkg =>
        match brd.at_ this_ref_pkg, brd.at_ pkg_uuid, brd.at_ target_pkg with
        | some this_ref, some ref_pkg, some target =>
          let offset := this_ref.placement.shift - ref_pkg.placement.shift
          let delta_angle := P.get_angle target.placement - P.get_angle ref_pkg.placement
          let tr := P.set_angle P.init delta_angle
          let brd1 := brd.modify it fun b =>
            { b with placement :=
                { b.placement with shift := target.placement.shift + P.transform tr offset } }
          match brd1.at_ this_ref_pkg with
          | some this_ref1 =>
            brd1.modify it fun b =>
              { b with placement :=
                  P.set_angle b.placement (P.get_angle this_ref1.placement + delta_angle) }
          | none => brd1
        | _, _, _ => brd
  else brd

/-- Lines 73-92: the loop over `target_pkgs`. -/
def copy_loop (P : PlacementMethods) (pkg_uuid target_pkg ref_group : UUID)
    (brd : Board) (target_pkgs : List UUID) : Board :=
  target_pkgs.foldl (copy_step P pkg_uuid target_pkg ref_group) brd

/-- `ToolCopyPlacement::update`. `P` are the `Placement` methods and `addr` the
addresses of the package map nodes (the iteration order of
`std::set<BoardPackage *>`). -/
def update (P : PlacementMethods) (addr : UUID → Nat) (core : Core) (args : ToolArgs) : Run :=
  if args.type = ToolEventType.CLICK then
    if args.button = 1 then
      if args.target.type = ObjectType.BOARD_PACKAGE ∨ args.target.type = ObjectType.PAD then
        match args.target.path.head? with
        | none => { core := core, calls := [], outcome := Outcome.thrown }
        | some pkg_uuid =>
          match core.b with
          | none => { core := core, calls := [], outcome := Outcome.null_deref }
          | some brd =>
            match brd.at_ pkg_uuid with
            | none => { core := core, calls := [], outcome := Outcome.thrown }
            | some ref_pkg =>
              let ref_group := ref_pkg.component.group
              let ref_tag := ref_pkg.component.tag
              match collect_target_pkgs addr brd core.selection [] with
              | none => { core := core, calls := [], outcome := Outcome.thrown }
              | some target_pkgs =>
                let target_group := find_target_group brd target_pkgs
                if !target_group.toBool then
                  { core := core.revert
                    calls := [Call.tool_bar_flash "no target group found", Call.revert]
                    outcome := Outcome.returned ToolResponse.end_ }
                else
                  match find_target_pkg brd ref_tag target_pkgs with
                  | none =>
                    { core := core.revert
                      calls := [Call.tool_bar_flash "no target package found", Call.revert]
                      outcome := Outcome.returned ToolResponse.end_ }
                  | some target_pkg =>
                    let brd := copy_loop P pkg_uuid target_pkg ref_group brd target_pkgs
                    { core := (core.set_board brd).commit
                      calls := [Call.commit]
                      outcome := Outcome.returned ToolResponse.end_ }
      else
        { core := core
          calls := [Call.tool_bar_flash "please click on a package"]
          outcome := Outcome.returned ToolResponse.default }
    else if args.button = 3 then
      { core := core.revert, calls := [Call.revert], outcome := Outcome.returned ToolResponse.end_ }
    else { core := core, calls := [], outcome := Outcome.returned ToolResponse.default }
  else { core := core, calls := [], outcome := Outcome.returned ToolResponse.default }

end ToolCopyPlacement

/-! ## tool_change_unit.cpp -/

namespace ToolChangeUnit

/-- `ToolChangeUnit::can_begin()`: `return core.y;`. -/
def can_begin (core : Core) : Bool := core.y.isSome

/-- `std::map::operator[]` followed by an assignment: the value under `k`
becomes `v`, the key order is kept. -/
def map_assign {V : Type} (k : UUID) (v : V) : List (UUID × V) → List (UUID × V)
  | [] => [(k, v)]
  | kv :: rest =>
    if k < kv.1 then (k, v) :: kv :: rest
    else if k = kv.1 then (k, v) :: rest
    else kv :: map_assign k v rest

/-- `std::map::emplace(k, v)`: inserts `(k, v)` in key order unless the key is
already there. -/
def map_emplace {V : Type} (k : UUID) (v : V) : List (UUID × V) → List (UUID × V)
  | [] => [(k, v)]
  | kv :: rest =>
    if k < kv.1 then (k, v) :: kv :: rest
    else if k = kv.1 then kv :: rest
    else kv :: map_emplace k v rest

/-- Lines 29-37: `pinmap` (old pin to new pin). For each pin of the new unit, in
map order, `std::find_if` takes the first pin of the old unit with the same
`primary_name`. -/
def build_pinmap (old_unit : Unit) : List (UUID × Pin) → List (UUID × UUID) → List (UUID × UUID)
  | [], pinmap => pinmap
  | it :: rest, pinmap =>
    let pin_name := it.2.primary_name
    match old_unit.pins.find? (fun x => x.2.primary_name == pin_name) with
    | some it_old_pin => build_pinmap old_unit rest (map_assign it_old_pin.1 it.1 pinmap)
    | none => build_pinmap old_unit rest pinmap

/-- Lines 39-41: `sym->pins.emplace(it.second, sym->pins.at(it.first))` for each
entry of `pinmap`. The flag is false when an `at` threw; the pins are then as
the loop left them at that point. -/
def emplace_pins : List (UUID × UUID) → List (UUID × SymbolPin) → List (UUID × SymbolPin) × Bool
  | [], pins => (pins, true)
  | it :: rest, pins =>
    match pins.lookup it.1 with
    | none => (pins, false)
    | some pin => emplace_pins rest (map_emplace it.2 pin pins)

/-- `ToolChangeUnit::begin`. `dialog` is what `imp->dialogs.select_unit`
returns. -/
def begin (dialog : Bool × UUID) (core : Core) (_args : ToolArgs) : Run :=
  let r := dialog.1
  let unit_uuid := dialog.2
  if !r then
    { core := core, calls := [Call.select_unit], outcome := Outcome.returned ToolResponse.end_ }
  else
    match core.m_pool.get_unit unit_uuid with
    | none => { core := core, calls := [Call.select_unit], outcome := Outcome.thrown }
    | some new_unit =>
      match core.y with
      | none => { core := core, calls := [Call.select_unit], outcome := Outcome.null_deref }
      | some sym =>
        let old_unit := sym.unit
        let pinmap := build_pinmap old_unit new_unit.pins []
        let sym := { sym with unit := new_unit }
        match emplace_pins pinmap sym.pins with
        | (pins, false) =>
          { core := core.set_symbol { sym with pins := pins }
            calls := [Call.select_unit]
            outcome := Outcome.thrown }
        | (pins, true) =>
          { core := (core.set_symbol { sym with pins := pins }).commit
            calls := [Call.select_unit, Call.commit]
            outcome := Outcome.returned ToolResponse.end_ }

/-- `ToolChangeUnit::update`: `return ToolResponse();`. -/
def update (core : Core) (_args : ToolArgs) : Run :=
  { core := core, calls := [], outcome := Outcome.returned ToolResponse.default }

end ToolChangeUnit

/-! ## Auxiliary views and sample states -/

/-- The component view of the package map: each key with the component of its
package. The tool reads components and never writes them. -/
def Board.components (brd : Board) : List (UUID × Component) :=
  brd.packages.map fun kv => (kv.1, kv.2.component)

/-- Lines 83-89 for one package: the placement the loop body leaves in a
package whose placement was `p`, computed from the placements of the anchor
(`target_pkg`), of the matched package of the reference group (`this_ref_pkg`)
and of the reference package (`ref_pkg`). -/
def copied_placement (P : PlacementMethods) (p target this_ref ref_pkg : Placement) :
    Placement :=
  let offset := this_ref.shift - ref_pkg.shift
  let delta_angle := P.get_angle target - P.get_angle ref_pkg
  let tr := P.set_angle P.init delta_angle
  P.set_angle ({ p with shift := target.shift + P.transform tr offset })
    (P.get_angle this_ref + delta_angle)

/-- A sample instance of the `Placement` methods, used to evaluate the tools on
sample states: the angle is kept modulo 65536 and `transform` rotates by
quarter turns (other angles are left unrotated), mirrors and shifts. -/
def samplePlacement : PlacementMethods where
  init := { shift := ⟨0, 0⟩, mirror := false, angle := 0 }
  get_angle := fun p => p.angle
  set_angle := fun p a => { p with angle := a % 65536 }
  transform := fun p c =>
    let r : Coordi :=
      if p.angle = 16384 then ⟨-c.y, c.x⟩
      else if p.angle = 32768 then ⟨-c.x, -c.y⟩
      else if p.angle = 49152 then ⟨c.y, -c.x⟩
      else c
    let r : Coordi := if p.mirror then ⟨-r.x, r.y⟩ else r
    r + p.shift

/-- Sample addresses of the map nodes: in key order. -/
def sampleAddr : UUID → Nat := fun u => u

/-- A sample package. -/
def samplePackage (uuid group tag : UUID) (x y angle : Int) : BoardPackage :=
  { uuid := uuid
    component := { group := group, tag := tag }
    placement := { shift := ⟨x, y⟩, mirror := false, angle := angle } }

/-- A sample board: packages 1 and 2 form group 10 (tags 100 and 101),
packages 3 and 4 form group 20 with the same tags. -/
def sampleBoard : Board :=
  { packages :=
      [(1, samplePackage 1 10 100 0 0 0), (2, samplePackage 2 10 101 5 0 16384),
       (3, samplePackage 3 20 100 100 100 16384), (4, samplePackage 4 20 101 7 7 0)] }

/-- The sample board with packages 3 and 4 in no group (null group UUID). -/
def sampleBoardUngrouped : Board :=
  { packages :=
      [(1, samplePackage 1 10 100 0 0 0), (2, samplePackage 2 10 101 5 0 16384),
       (3, samplePackage 3 0 100 100 100 16384), (4, samplePackage 4 0 101 7 7 0)] }

/-- A board core between tools (working equals stable) with packages 3 and 4
selected. -/
def sampleCore (brd : Board) : Core :=
  { docs := Docs.board brd brd
    selection := [⟨3, ObjectType.BOARD_PACKAGE⟩, ⟨4, ObjectType.BOARD_PACKAGE⟩]
    m_pool := { units := [] } }

/-- A click with the given button on package 1. -/
def sampleClick (button : Nat) : ToolArgs :=
  { type := ToolEventType.CLICK
    coords := ⟨0, 0⟩
    selection := []
    keep_selection := false
    button := button
    key := 0
    target := { type := ObjectType.BOARD_PACKAGE, path := [1] }
    work_layer := 0 }

/-- A sample unit with one pin, named A, under key 1. -/
def sampleUnitOld : Unit := { uuid := 50, pins := [(1, { primary_name := "A" })] }

/-- A second sample unit with one pin, named A, under key 2. -/
def sampleUnitNew : Unit := { uuid := 51, pins := [(2, { primary_name := "A" })] }

/-- A sample symbol of the first unit on which no pin has been placed yet. -/
def sampleSymbol : Symbol := { unit := sampleUnitOld, pins := [] }

/-- A symbol core between tools (working equals stable) whose pool holds the
two sample units. -/
def sampleSymbolCore : Core :=
  { docs := Docs.symbol sampleSymbol sampleSymbol
    selection := []
    m_pool := { units := [(50, sampleUnitOld), (51, sampleUnitNew)] } }

/-- Everything of the package map but the placements: each key with the `uuid`
and the component of its package, in map order. -/
def Board.skeleton (brd : Board) : List (UUID × UUID × Component) :=
  brd.packages.map fun kv => (kv.1, kv.2.uuid, kv.2.component)

/-- The sample symbol with pin 1 of its unit placed. -/
def sampleSymbolPlaced : Symbol :=
  { unit := sampleUnitOld, pins := [(1, { uuid := 1, position := ⟨3, 4⟩ })] }

/-- A symbol core between tools (working equals stable) on the sample symbol
with its pin placed; the pool holds the two sample units. -/
def sampleSymbolPlacedCore : Core :=
  { docs := Docs.symbol sampleSymbolPlaced sampleSymbolPlaced
    selection := []
    m_pool := { units := [(50, sampleUnitOld), (51, sampleUnitNew)] } }

/-! ## Theorems: tool responses and the base property query -/

/-- C7: `ToolResponse::end()` has `end_tool = true`, `next_tool = NONE` and the
default layer 10000, while the default-constructed `ToolResponse()` has
`end_tool = false`. -/
theorem ToolResponse.end_fields :
    ToolResponse.end_.end_tool = true ∧ ToolResponse.end_.next_tool = ToolID.NONE ∧
      ToolResponse.end_.layer = 10000 ∧ ToolResponse.default.end_tool = false := by
  simp [ToolResponse.end_, ToolResponse.default]

/-- C8: for every tool id `t`, `ToolResponse::next(t)` has `end_tool = true`,
`next_tool = t` and the default layer 10000; `next(NONE)` equals `end()`; and
`next(t)` asks for a chained tool exactly when `t` is not `NONE`. -/
theorem ToolResponse.next_fields (t : ToolID) :
    (ToolResponse.next t).end_tool = true ∧ (ToolResponse.next t).next_tool = t ∧
      (ToolResponse.next t).layer = 10000 ∧
      ToolResponse.next ToolID.NONE = ToolResponse.end_ ∧
      ((ToolResponse.next t).next_tool ≠ ToolID.NONE ↔ t ≠ ToolID.NONE) := by
  simp [ToolResponse.next, ToolResponse.end_]

/-- C9: for every layer index `l`, `ToolResponse::change_layer(l)` has
`layer = l`, `end_tool = false` and `next_tool = NONE`. -/
theorem ToolResponse.change_layer_fields (l : Int) :
    (ToolResponse.change_layer l).layer = l ∧
      (ToolResponse.change_layer l).end_tool = false ∧
      (ToolResponse.change_layer l).next_tool = ToolID.NONE := by
  simp [ToolResponse.change_layer]

/-- C6: for every UUID, object type and property id the base
`Core::property_is_settable` returns true; a supplied `handled` out-parameter
holds false afterwards, whatever it held before, and a null one stays null. -/
theorem Core.property_is_settable_default (uu : UUID) (type : ObjectType)
    (property : ObjectPropertyID) (handled : Option Bool) :
    (Core.property_is_settable uu type property handled).1 = true ∧
      (∀ b, handled = some b →
        (Core.property_is_settable uu type property handled).2 = some false) ∧
      (handled = none → (Core.property_is_settable uu type property handled).2 = none) := by
  refine ⟨rfl, ?_, ?_⟩
  · intro b hb
    subst hb
    rfl
  · intro hb
    subst hb
    rfl

/-! ## Theorems: `ToolCopyPlacement::can_begin` -/

/-- C1: `ToolCopyPlacement::can_begin` is true exactly when the core is a board
core and the selection has an entry of type `BOARD_PACKAGE`; it is false for
every selection without such an entry (the empty one included) and for every
core that is not a board core. -/
theorem ToolCopyPlacement.can_begin_iff (core : Core) :
    (ToolCopyPlacement.can_begin core = true ↔
        core.b.isSome = true ∧ ∃ x ∈ core.selection, x.type = ObjectType.BOARD_PACKAGE) ∧
      ((∀ x ∈ core.selection, x.type ≠ ObjectType.BOARD_PACKAGE) →
        ToolCopyPlacement.can_begin core = false) ∧
      (core.selection = [] → ToolCopyPlacement.can_begin core = false) ∧
      (core.b = none → ToolCopyPlacement.can_begin core = false) := by
  have key : ToolCopyPlacement.can_begin core = true ↔
      core.b.isSome = true ∧ ∃ x ∈ core.selection, x.type = ObjectType.BOARD_PACKAGE := by
    unfold ToolCopyPlacement.can_begin
    cases hb : core.b with
    | none => simp
    | some brd => simp [List.countP_pos_iff]
  refine ⟨key, ?_, ?_, ?_⟩
  · intro h
    rw [← Bool.not_eq_true, key]
    rintro ⟨_, x, hx, hty⟩
    exact h x hx hty
  · intro h
    rw [← Bool.not_eq_true, key, h]
    simp
  · intro h
    rw [← Bool.not_eq_true, key, h]
    simp

/-! ## Theorems: `ToolCopyPlacement::update`, cancellation and ending -/

/-- A revert of a core whose working copy equals its stable copy changes
nothing. -/
theorem Core.revert_of_synced (core : Core) (h : core.synced) : core.revert = core := by
  cases core with
  | mk docs selection m_pool =>
    cases docs with
    | board brd brd_work =>
      simp only [Core.synced] at h
      simp [Core.revert, h]
    | symbol sym sym_work =>
      simp only [Core.synced] at h
      simp [Core.revert, h]
    | other => rfl

/-- After a revert the working copy equals the stable copy. -/
theorem Core.synced_revert (core : Core) : core.revert.synced := by
  cases core with
  | mk docs selection m_pool =>
    cases docs <;> simp [Core.revert, Core.synced]

/-- After a commit the working copy equals the stable copy. -/
theorem Core.synced_commit (core : Core) : core.commit.synced := by
  cases core with
  | mk docs selection m_pool =>
    cases docs <;> simp [Core.commit, Core.synced]

/-- C3: on a click with button 3, whatever the target and the selection,
`ToolCopyPlacement::update` makes one call on the core, `revert()`, and no
`commit()`; the state it leaves is the reverted one, with no write of its own
(a core whose working copy equalled the stable one is left as it was); and it
returns a response with `end_tool = true` and `next_tool = NONE`. -/
theorem ToolCopyPlacement.update_cancel (P : PlacementMethods) (addr : UUID → Nat)
    (core : Core) (args : ToolArgs)
    (htype : args.type = ToolEventType.CLICK) (hbutton : args.button = 3) :
    (ToolCopyPlacement.update P addr core args).calls = [Call.revert] ∧
      (ToolCopyPlacement.update P addr core args).reverts = 1 ∧
      (ToolCopyPlacement.update P addr core args).commits = 0 ∧
      (ToolCopyPlacement.update P addr core args).core = core.revert ∧
      (core.synced → (ToolCopyPlacement.update P addr core args).core = core) ∧
      ∃ resp, (ToolCopyPlacement.update P addr core args).outcome = Outcome.returned resp ∧
        resp.end_tool = true ∧ resp.next_tool = ToolID.NONE := by
  have h : ToolCopyPlacement.update P addr core args =
      { core := core.revert, calls := [Call.revert],
        outcome := Outcome.returned ToolResponse.end_ } := by
    simp [ToolCopyPlacement.update, htype, hbutton]
  rw [h]
  refine ⟨rfl, by simp [Run.reverts], by simp [Run.commits], rfl,
    fun hs => Core.revert_of_synced core hs, ?_⟩
  exact ⟨ToolResponse.end_, rfl, rfl, rfl⟩

/-- Every run of `ToolCopyPlacement::update` has one of two shapes: it returned
an end-response after exactly one `commit()` or exactly one `revert()`, or it
did not end, called neither and left the core as it was. -/
theorem ToolCopyPlacement.update_shape (P : PlacementMethods) (addr : UUID → Nat)
    (core : Core) (args : ToolArgs) :
    ((ToolCopyPlacement.update P addr core args).ended = true ∧
        (((ToolCopyPlacement.update P addr core args).commits = 1 ∧
            (ToolCopyPlacement.update P addr core args).reverts = 0) ∨
          ((ToolCopyPlacement.update P addr core args).commits = 0 ∧
            (ToolCopyPlacement.update P addr core args).reverts = 1))) ∨
      ((ToolCopyPlacement.update P addr core args).ended = false ∧
        (ToolCopyPlacement.update P addr core args).commits = 0 ∧
        (ToolCopyPlacement.update P addr core args).reverts = 0 ∧
        (ToolCopyPlacement.update P addr core args).core = core) := by
  unfold ToolCopyPlacement.update
  by_cases ht : args.type = ToolEventType.CLICK
  swap
  · simp [ht, Run.ended, Run.commits, Run.reverts, ToolResponse.default]
  by_cases h1 : args.button = 1
  swap
  · by_cases h3 : args.button = 3
    · simp [ht, h3, Run.ended, Run.commits, Run.reverts, ToolResponse.end_]
    · simp [ht, h1, h3, Run.ended, Run.commits, Run.reverts, ToolResponse.default]
  by_cases htt : args.target.type = ObjectType.BOARD_PACKAGE ∨ args.target.type = ObjectType.PAD
  swap
  · simp [ht, h1, htt, Run.ended, Run.commits, Run.reverts, ToolResponse.default]
  rw [if_pos ht, if_pos h1, if_pos htt]
  cases hp : args.target.path.head? with
  | none => simp [Run.ended, Run.commits, Run.reverts]
  | some pkg_uuid =>
    dsimp only
    cases hb : core.b with
    | none => simp [Run.ended, Run.commits, Run.reverts]
    | some brd =>
      dsimp only
      cases href : brd.at_ pkg_uuid with
      | none => simp [Run.ended, Run.commits, Run.reverts]
      | some ref_pkg =>
        dsimp only
        cases hc : ToolCopyPlacement.collect_target_pkgs addr brd core.selection [] with
        | none => simp [Run.ended, Run.commits, Run.reverts]
        | some target_pkgs =>
          dsimp only
          by_cases hg : (ToolCopyPlacement.find_target_group brd target_pkgs).toBool = true
          swap
          · simp [hg, Run.ended, Run.commits, Run.reverts, ToolResponse.end_]
          cases hf : ToolCopyPlacement.find_target_pkg brd ref_pkg.component.tag target_pkgs with
          | none => simp [hg, hf, Run.ended, Run.commits, Run.reverts, ToolResponse.end_]
          | some target_pkg =>
            simp [hg, hf, Run.ended, Run.commits, Run.reverts, ToolResponse.end_]

/-- C5: for every core state and every `ToolArgs`, a call of
`ToolCopyPlacement::begin` or `ToolCopyPlacement::update` returns a response
with `end_tool = true` exactly when it called exactly one of `commit()` and
`revert()`, exactly once. `begin` never ends. A call that returns a non-ending
response made no `commit()` and no `revert()` and left both documents as they
were; that is the case for every event that is not a click, every click with a
button other than 1 and 3, and every button-1 click on a target that is neither
a `BOARD_PACKAGE` nor a `PAD`. -/
theorem ToolCopyPlacement.ended_iff_commit_xor_revert (P : PlacementMethods)
    (addr : UUID → Nat) (core : Core) (args : ToolArgs) :
    ((ToolCopyPlacement.begin core args).ended = true ↔
        ((ToolCopyPlacement.begin core args).commits = 1 ∧
            (ToolCopyPlacement.begin core args).reverts = 0) ∨
          ((ToolCopyPlacement.begin core args).commits = 0 ∧
            (ToolCopyPlacement.begin core args).reverts = 1)) ∧
      ((ToolCopyPlacement.update P addr core args).ended = true ↔
        ((ToolCopyPlacement.update P addr core args).commits = 1 ∧
            (ToolCopyPlacement.update P addr core args).reverts = 0) ∨
          ((ToolCopyPlacement.update P addr core args).commits = 0 ∧
            (ToolCopyPlacement.update P addr core args).reverts = 1)) ∧
      ((ToolCopyPlacement.begin core args).outcome = Outcome.returned ToolResponse.default ∧
        ToolResponse.default.end_tool = false ∧
        (ToolCopyPlacement.begin core args).commits = 0 ∧
        (ToolCopyPlacement.begin core args).reverts = 0 ∧
        (ToolCopyPlacement.begin core args).core = core) ∧
      ((ToolCopyPlacement.update P addr core args).ended = false →
        (ToolCopyPlacement.update P addr core args).commits = 0 ∧
          (ToolCopyPlacement.update P addr core args).reverts = 0 ∧
          (ToolCopyPlacement.update P addr core args).core = core) ∧
      ((args.type ≠ ToolEventType.CLICK ∨ (args.button ≠ 1 ∧ args.button ≠ 3) ∨
          (args.button = 1 ∧ args.target.type ≠ ObjectType.BOARD_PACKAGE ∧
            args.target.type ≠ ObjectType.PAD)) →
        (ToolCopyPlacement.update P addr core args).outcome =
          Outcome.returned ToolResponse.default) := by
  refine ⟨?_, ?_, ?_, ?_, ?_⟩
  · simp [ToolCopyPlacement.begin, Run.ended, Run.commits, Run.reverts, ToolResponse.default]
  · rcases ToolCopyPlacement.update_shape P addr core args with ⟨he, h⟩ | ⟨he, hc, hr, _⟩
    · exact ⟨fun _ => h, fun _ => he⟩
    · simp [he, hc, hr]
  · simp [ToolCopyPlacement.begin, Run.commits, Run.reverts, ToolResponse.default]
  · intro hne
    rcases ToolCopyPlacement.update_shape P addr core args with ⟨he, _⟩ | ⟨_, hc, hr, hcore⟩
    · rw [he] at hne
      exact absurd hne (by decide)
    · exact ⟨hc, hr, hcore⟩
  · rintro (h | ⟨h1, h3⟩ | ⟨h1, hb, hp⟩)
    · simp [ToolCopyPlacement.update, h]
    · simp [ToolCopyPlacement.update, h1, h3]
    · by_cases ht : args.type = ToolEventType.CLICK
      · simp [ToolCopyPlacement.update, ht, h1, hb, hp]
      · simp [ToolCopyPlacement.update, ht]

/-! ## Theorems: `ToolCopyPlacement::update`, the searches over `target_pkgs` -/

/-- The set after an insertion holds the inserted pointer and what it held. -/
theorem ToolCopyPlacement.mem_ptr_insert (addr : UUID → Nat) (u x : UUID) (l : List UUID) :
    x ∈ ToolCopyPlacement.ptr_insert addr u l ↔ x = u ∨ x ∈ l := by
  induction l with
  | nil => simp [ToolCopyPlacement.ptr_insert]
  | cons v rest ih =>
    unfold ToolCopyPlacement.ptr_insert
    split_ifs with h1 h2
    · subst h1
      simp
    · simp
    · simp only [List.mem_cons, ih]
      tauto

/-- An insertion keeps the set ordered by address and free of repetitions. -/
theorem ToolCopyPlacement.pairwise_ptr_insert (addr : UUID → Nat) (u : UUID) (l : List UUID)
    (h : l.Pairwise fun a b => addr a ≤ addr b ∧ a ≠ b) :
    (ToolCopyPlacement.ptr_insert addr u l).Pairwise fun a b => addr a ≤ addr b ∧ a ≠ b := by
  induction l with
  | nil => simp [ToolCopyPlacement.ptr_insert]
  | cons v rest ih =>
    unfold ToolCopyPlacement.ptr_insert
    have hv := List.pairwise_cons.mp h
    split_ifs with h1 h2
    · exact h
    · refine List.pairwise_cons.mpr ⟨?_, h⟩
      intro x hx
      rcases List.mem_cons.mp hx with h3 | h3
      · subst h3
        exact ⟨Nat.le_of_lt h2, h1⟩
      · have hvx := hv.1 x h3
        refine ⟨by omega, ?_⟩
        intro hux
        subst hux
        omega
    · refine List.pairwise_cons.mpr ⟨?_, ih hv.2⟩
      intro x hx
      rcases (ToolCopyPlacement.mem_ptr_insert addr u x rest).mp hx with h3 | h3
      · subst h3
        exact ⟨by omega, fun hvx => h1 hvx.symm⟩
      · exact hv.1 x h3

/-- When every selected board package is on the board, collecting
`target_pkgs` does not throw, and the set holds what it held before and the
selected board packages. -/
theorem ToolCopyPlacement.collect_target_pkgs_some (addr : UUID → Nat) (brd : Board)
    (sel : List SelectableRef) (acc : List UUID)
    (hsel : ∀ x ∈ sel, x.type = ObjectType.BOARD_PACKAGE → (brd.at_ x.uuid).isSome = true) :
    ∃ ts, ToolCopyPlacement.collect_target_pkgs addr brd sel acc = some ts ∧
      ∀ u, u ∈ ts ↔ u ∈ acc ∨ ∃ x ∈ sel, x.type = ObjectType.BOARD_PACKAGE ∧ x.uuid = u := by
  induction sel generalizing acc with
  | nil => exact ⟨acc, rfl, by simp⟩
  | cons it rest ih =>
    have hrest : ∀ x ∈ rest, x.type = ObjectType.BOARD_PACKAGE →
        (brd.at_ x.uuid).isSome = true := fun x hx => hsel x (List.mem_cons_of_mem _ hx)
    unfold ToolCopyPlacement.collect_target_pkgs
    by_cases hty : it.type = ObjectType.BOARD_PACKAGE
    · rw [if_pos hty]
      have hit := hsel it (List.mem_cons_self _ _) hty
      obtain ⟨pkg, hpkg⟩ := Option.isSome_iff_exists.mp hit
      rw [hpkg]
      obtain ⟨ts, hts, hmem⟩ := ih (ToolCopyPlacement.ptr_insert addr it.uuid acc) hrest
      refine ⟨ts, hts, fun u => ?_⟩
      rw [hmem u, ToolCopyPlacement.mem_ptr_insert]
      constructor
      · rintro ((h | h) | ⟨x, hx, hxt, hxu⟩)
        · exact Or.inr ⟨it, List.mem_cons_self _ _, hty, h.symm⟩
        · exact Or.inl h
        · exact Or.inr ⟨x, List.mem_cons_of_mem _ hx, hxt, hxu⟩
      · rintro (h | ⟨x, hx, hxt, hxu⟩)
        · exact Or.inl (Or.inr h)
        · rcases List.mem_cons.mp hx with h | h
          · subst h
            exact Or.inl (Or.inl hxu.symm)
          · exact Or.inr ⟨x, h, hxt, hxu⟩
    · rw [if_neg hty]
      obtain ⟨ts, hts, hmem⟩ := ih acc hrest
      refine ⟨ts, hts, fun u => ?_⟩
      rw [hmem u]
      constructor
      · rintro (h | ⟨x, hx, hxt, hxu⟩)
        · exact Or.inl h
        · exact Or.inr ⟨x, List.mem_cons_of_mem _ hx, hxt, hxu⟩
      · rintro (h | ⟨x, hx, hxt, hxu⟩)
        · exact Or.inl h
        · rcases List.mem_cons.mp hx with h | h
          · subst h
            exact absurd hxt hty
          · exact Or.inr ⟨x, h, hxt, hxu⟩

/-- The collected `target_pkgs` are ordered by address and free of repetitions. -/
theorem ToolCopyPlacement.collect_target_pkgs_pairwise (addr : UUID → Nat) (brd : Board)
    (sel : List SelectableRef) (acc ts : List UUID)
    (hacc : acc.Pairwise fun a b => addr a ≤ addr b ∧ a ≠ b)
    (h : ToolCopyPlacement.collect_target_pkgs addr brd sel acc = some ts) :
    ts.Pairwise fun a b => addr a ≤ addr b ∧ a ≠ b := by
  induction sel generalizing acc with
  | nil =>
    simp only [ToolCopyPlacement.collect_target_pkgs, Option.some.injEq] at h
    exact h ▸ hacc
  | cons it rest ih =>
    unfold ToolCopyPlacement.collect_target_pkgs at h
    by_cases hty : it.type = ObjectType.BOARD_PACKAGE
    · rw [if_pos hty] at h
      cases hpkg : brd.at_ it.uuid with
      | none => simp [hpkg] at h
      | some pkg =>
        rw [hpkg] at h
        exact ih _ (ToolCopyPlacement.pairwise_ptr_insert addr it.uuid acc hacc) h
    · rw [if_neg hty] at h
      exact ih acc hacc h

/-- When no package of `target_pkgs` has a component with a non-null group,
`target_group` stays the null UUID. -/
theorem ToolCopyPlacement.find_target_group_null (brd : Board) (ts : List UUID)
    (h : ∀ u ∈ ts, ∀ pkg, brd.at_ u = some pkg → pkg.component.group.toBool = false) :
    (ToolCopyPlacement.find_target_group brd ts).toBool = false := by
  induction ts with
  | nil => rfl
  | cons it rest ih =>
    have hrest := ih fun u hu => h u (List.mem_cons_of_mem _ hu)
    unfold ToolCopyPlacement.find_target_group
    cases hpkg : brd.at_ it with
    | none => exact hrest
    | some pkg =>
      dsimp only
      rw [if_neg]
      · exact hrest
      · rw [h it (List.mem_cons_self _ _) pkg hpkg]
        decide

/-- When no package of `target_pkgs` has the reference tag, `target_pkg` stays
the null pointer. -/
theorem ToolCopyPlacement.find_target_pkg_none (brd : Board) (ref_tag : UUID) (ts : List UUID)
    (h : ∀ u ∈ ts, ∀ pkg, brd.at_ u = some pkg → pkg.component.tag ≠ ref_tag) :
    ToolCopyPlacement.find_target_pkg brd ref_tag ts = none := by
  induction ts with
  | nil => rfl
  | cons it rest ih =>
    have hrest := ih fun u hu => h u (List.mem_cons_of_mem _ hu)
    unfold ToolCopyPlacement.find_target_pkg
    cases hpkg : brd.at_ it with
    | none => exact hrest
    | some pkg =>
      dsimp only
      rw [if_neg (h it (List.mem_cons_self _ _) pkg hpkg)]
      exact hrest

/-- C4: on a button-1 click on a `BOARD_PACKAGE` or `PAD` target that resolves
to a reference package of the board, with every selected board package on the
board: if no selected board package has a component with a non-null group, or
none has the component tag of the reference package, then
`ToolCopyPlacement::update` flashes a message, calls `revert()` once and
`commit()` never, leaves the reverted state with no write of its own (a core
whose working copy equalled the stable one is left as it was), and returns an
end-response (`end_tool = true`, `next_tool = NONE`). -/
theorem ToolCopyPlacement.update_no_target (P : PlacementMethods) (addr : UUID → Nat)
    (core : Core) (args : ToolArgs) (brd : Board) (pkg_uuid : UUID) (ref_pkg : BoardPackage)
    (htype : args.type = ToolEventType.CLICK) (hbutton : args.button = 1)
    (htarget : args.target.type = ObjectType.BOARD_PACKAGE ∨ args.target.type = ObjectType.PAD)
    (hpath : args.target.path.head? = some pkg_uuid)
    (hboard : core.b = some brd)
    (href : brd.at_ pkg_uuid = some ref_pkg)
    (hsel : ∀ x ∈ core.selection, x.type = ObjectType.BOARD_PACKAGE →
      (brd.at_ x.uuid).isSome = true)
    (hno : (∀ x ∈ core.selection, x.type = ObjectType.BOARD_PACKAGE →
          ∀ pkg, brd.at_ x.uuid = some pkg → pkg.component.group.toBool = false) ∨
        (∀ x ∈ core.selection, x.type = ObjectType.BOARD_PACKAGE →
          ∀ pkg, brd.at_ x.uuid = some pkg → pkg.component.tag ≠ ref_pkg.component.tag)) :
    (∃ msg, (ToolCopyPlacement.update P addr core args).calls =
        [Call.tool_bar_flash msg, Call.revert]) ∧
      (ToolCopyPlacement.update P addr core args).reverts = 1 ∧
      (ToolCopyPlacement.update P addr core args).commits = 0 ∧
      (ToolCopyPlacement.update P addr core args).core = core.revert ∧
      (core.synced → (ToolCopyPlacement.update P addr core args).core = core) ∧
      ∃ resp, (ToolCopyPlacement.update P addr core args).outcome = Outcome.returned resp ∧
        resp.end_tool = true ∧ resp.next_tool = ToolID.NONE := by
  obtain ⟨ts, hts, hmem⟩ := ToolCopyPlacement.collect_target_pkgs_some addr brd core.selection [] hsel
  have hshape : ∃ msg, ToolCopyPlacement.update P addr core args =
      { core := core.revert, calls := [Call.tool_bar_flash msg, Call.revert],
        outcome := Outcome.returned ToolResponse.end_ } := by
    unfold ToolCopyPlacement.update
    rw [if_pos htype, if_pos hbutton, if_pos htarget, hpath]
    dsimp only
    rw [hboard]
    dsimp only
    rw [href]
    dsimp only
    rw [hts]
    dsimp only
    by_cases hg : (ToolCopyPlacement.find_target_group brd ts).toBool = true
    swap
    · exact ⟨"no target group found", by simp [hg]⟩
    rcases hno with hno | hno
    · have := ToolCopyPlacement.find_target_group_null brd ts fun u hu pkg hpkg => by
        obtain ⟨x, hx, hxt, hxu⟩ := ((hmem u).mp hu).resolve_left (by simp)
        exact hno x hx hxt pkg (hxu ▸ hpkg)
      rw [this] at hg
      exact absurd hg (by decide)
    · have := ToolCopyPlacement.find_target_pkg_none brd ref_pkg.component.tag ts
        fun u hu pkg hpkg => by
          obtain ⟨x, hx, hxt, hxu⟩ := ((hmem u).mp hu).resolve_left (by simp)
          exact hno x hx hxt pkg (hxu ▸ hpkg)
      exact ⟨"no target package found", by simp [hg, this]⟩
  obtain ⟨msg, hrun⟩ := hshape
  rw [hrun]
  refine ⟨⟨msg, rfl⟩, by simp [Run.reverts], by simp [Run.commits], rfl,
    fun hs => Core.revert_of_synced core hs, ?_⟩
  exact ⟨ToolResponse.end_, rfl, rfl, rfl⟩

/-- Witness of C3: a button-3 click on the sample board core. -/
theorem ToolCopyPlacement.update_cancel_witness :
    ((sampleClick 3).type = ToolEventType.CLICK ∧ (sampleClick 3).button = 3) ∧
      (ToolCopyPlacement.update samplePlacement sampleAddr (sampleCore sampleBoard)
          (sampleClick 3)).calls = [Call.revert] ∧
      (ToolCopyPlacement.update samplePlacement sampleAddr (sampleCore sampleBoard)
          (sampleClick 3)).core = sampleCore sampleBoard :=
  have h := ToolCopyPlacement.update_cancel samplePlacement sampleAddr (sampleCore sampleBoard)
    (sampleClick 3) rfl rfl
  ⟨⟨rfl, rfl⟩, h.1, h.2.2.2.2.1 (by decide)⟩

/-- Witness of C4: a button-1 click on package 1 of the board whose selected
packages 3 and 4 are in no group. -/
theorem ToolCopyPlacement.update_no_target_witness :
    (ToolCopyPlacement.update samplePlacement sampleAddr (sampleCore sampleBoardUngrouped)
          (sampleClick 1)).reverts = 1 ∧
      (ToolCopyPlacement.update samplePlacement sampleAddr (sampleCore sampleBoardUngrouped)
          (sampleClick 1)).commits = 0 ∧
      (ToolCopyPlacement.update samplePlacement sampleAddr (sampleCore sampleBoardUngrouped)
          (sampleClick 1)).core = sampleCore sampleBoardUngrouped :=
  have h := ToolCopyPlacement.update_no_target samplePlacement sampleAddr
    (sampleCore sampleBoardUngrouped) (sampleClick 1) sampleBoardUngrouped 1
    (samplePackage 1 10 100 0 0 0) rfl rfl (Or.inl rfl) rfl rfl rfl (by decide)
    (Or.inl (by decide))
  ⟨h.2.1, h.2.2.1, h.2.2.2.2.1 (by decide)⟩

/-! ## Theorems: `ToolCopyPlacement::update`, the copy loop -/

/-- A lookup after a keyed rewrite of the values. -/
theorem lookup_map_modify {V : Type} (u v : UUID) (f : V → V) (l : List (UUID × V)) :
    List.lookup v (l.map fun kv => if kv.1 = u then (kv.1, f kv.2) else kv) =
      if v = u then (List.lookup v l).map f else List.lookup v l := by
  induction l with
  | nil => simp
  | cons kv rest ih =>
    obtain ⟨k, x⟩ := kv
    rw [List.map_cons]
    by_cases hk : k = u
    · rw [if_pos hk]
      by_cases hv : v = k
      · have hb : (v == k) = true := by simpa using hv
        simp only [List.lookup_cons, hb]
        simp [hv, hk]
      · have hb : (v == k) = false := by simpa using hv
        simp only [List.lookup_cons, hb]
        exact ih
    · rw [if_neg hk]
      by_cases hv : v = k
      · have hb : (v == k) = true := by simpa using hv
        simp only [List.lookup_cons, hb]
        simp [hv, hk]
      · have hb : (v == k) = false := by simpa using hv
        simp only [List.lookup_cons, hb]
        exact ih

/-- Reading a package after a write through a pointer. -/
theorem Board.at_modify (brd : Board) (u v : UUID) (f : BoardPackage → BoardPackage) :
    (brd.modify u f).at_ v = if v = u then (brd.at_ v).map f else brd.at_ v :=
  lookup_map_modify u v f brd.packages

/-- A write that keeps the component keeps the component view. -/
theorem Board.components_modify (brd : Board) (u : UUID) (f : BoardPackage → BoardPackage)
    (hf : ∀ b, (f b).component = b.component) :
    (brd.modify u f).components = brd.components := by
  simp only [Board.components, Board.modify, List.map_map]
  apply List.map_congr_left
  intro kv _
  by_cases hk : kv.1 = u
  · simp [hk, hf]
  · simp [hk]

/-- The search for `this_ref_pkg` reads the component view only. -/
theorem ToolCopyPlacement.find_this_ref_pkg_components (brd : Board) (tag ref_group : UUID) :
    ToolCopyPlacement.find_this_ref_pkg brd.packages tag ref_group =
      brd.components.foldl
        (fun acc c => if c.2.tag = tag ∧ c.2.group = ref_group then some c.1 else acc) none := by
  simp only [ToolCopyPlacement.find_this_ref_pkg, Board.components, List.foldl_map]

/-- The step for the anchor itself writes nothing. -/
theorem ToolCopyPlacement.copy_step_anchor (P : PlacementMethods)
    (pkg_uuid target_pkg ref_group : UUID) (brd : Board) :
    ToolCopyPlacement.copy_step P pkg_uuid target_pkg ref_group brd target_pkg = brd := by
  simp [ToolCopyPlacement.copy_step]

/-- A step writes placements only: the component view is kept. -/
theorem ToolCopyPlacement.copy_step_components (P : PlacementMethods)
    (pkg_uuid target_pkg ref_group : UUID) (brd : Board) (it : UUID) :
    (ToolCopyPlacement.copy_step P pkg_uuid target_pkg ref_group brd it).components =
      brd.components := by
  unfold ToolCopyPlacement.copy_step
  split_ifs with h
  · split
    · rfl
    · split
      · rfl
      · split
        · dsimp only
          split
          · rw [Board.components_modify, Board.components_modify]
            all_goals exact fun _ => rfl
          · rw [Board.components_modify]
            exact fun _ => rfl
        · rfl
  · rfl

/-- A step writes through the pointer `it` only. -/
theorem ToolCopyPlacement.copy_step_frame (P : PlacementMethods)
    (pkg_uuid target_pkg ref_group : UUID) (brd : Board) (it v : UUID) (hv : v ≠ it) :
    (ToolCopyPlacement.copy_step P pkg_uuid target_pkg ref_group brd it).at_ v = brd.at_ v := by
  unfold ToolCopyPlacement.copy_step
  split_ifs with h
  · split
    · rfl
    · split
      · rfl
      · split
        · dsimp only
          split
          · rw [Board.at_modify, if_neg hv, Board.at_modify, if_neg hv]
          · rw [Board.at_modify, if_neg hv]
        · rfl
  · rfl

/-- The value a step writes. -/
theorem ToolCopyPlacement.copy_step_value (P : PlacementMethods)
    (pkg_uuid target_pkg ref_group : UUID) (brd : Board) (it this_ref_pkg : UUID)
    (p this_ref ref_pkg target : BoardPackage)
    (hne : it ≠ target_pkg) (hp : brd.at_ it = some p)
    (hfind : ToolCopyPlacement.find_this_ref_pkg brd.packages p.component.tag ref_group =
      some this_ref_pkg)
    (hq : brd.at_ this_ref_pkg = some this_ref) (hqne : this_ref_pkg ≠ it)
    (href : brd.at_ pkg_uuid = some ref_pkg) (ht : brd.at_ target_pkg = some target) :
    (ToolCopyPlacement.copy_step P pkg_uuid target_pkg ref_group brd it).at_ it =
      some { p with
        placement := P.set_angle
          ({ p.placement with
            shift := target.placement.shift +
              P.transform
                (P.set_angle P.init (P.get_angle target.placement - P.get_angle ref_pkg.placement))
                (this_ref.placement.shift - ref_pkg.placement.shift) })
          (P.get_angle this_ref.placement +
            (P.get_angle target.placement - P.get_angle ref_pkg.placement)) } := by
  unfold ToolCopyPlacement.copy_step
  rw [if_pos hne, hp]
  dsimp only
  rw [hfind]
  dsimp only
  rw [hq, href, ht]
  dsimp only
  rw [Board.at_modify, if_neg hqne, hq]
  dsimp only
  rw [Board.at_modify, if_pos rfl, Board.at_modify, if_pos rfl, hp]
  rfl

/-- The loop writes placements only. -/
theorem ToolCopyPlacement.copy_loop_components (P : PlacementMethods)
    (pkg_uuid target_pkg ref_group : UUID) (brd : Board) (ts : List UUID) :
    (ToolCopyPlacement.copy_loop P pkg_uuid target_pkg ref_group brd ts).components =
      brd.components := by
  induction ts generalizing brd with
  | nil => rfl
  | cons it rest ih =>
    simp only [ToolCopyPlacement.copy_loop, List.foldl_cons] at ih ⊢
    rw [ih, ToolCopyPlacement.copy_step_components]

/-- The loop leaves alone every package that is not in `target_pkgs`, and the
anchor. -/
theorem ToolCopyPlacement.copy_loop_frame (P : PlacementMethods)
    (pkg_uuid target_pkg ref_group : UUID) (brd : Board) (ts : List UUID) (v : UUID)
    (hv : v ∈ ts → v = target_pkg) :
    (ToolCopyPlacement.copy_loop P pkg_uuid target_pkg ref_group brd ts).at_ v = brd.at_ v := by
  induction ts generalizing brd with
  | nil => rfl
  | cons it rest ih =>
    simp only [ToolCopyPlacement.copy_loop, List.foldl_cons] at ih ⊢
    rw [ih _ (fun h => hv (List.mem_cons_of_mem _ h))]
    by_cases hit : v = it
    · have : it = target_pkg := hit ▸ hv (hit ▸ List.mem_cons_self _ _)
      rw [this, ToolCopyPlacement.copy_step_anchor]
    · exact ToolCopyPlacement.copy_step_frame P pkg_uuid target_pkg ref_group brd it v hit

/-- The placement the loop leaves in a package of `target_pkgs` other than the
anchor, when its matched package, the reference package and the anchor are not
written by the loop. -/
theorem ToolCopyPlacement.copy_loop_value (P : PlacementMethods)
    (pkg_uuid target_pkg ref_group : UUID) (brd : Board) (ts : List UUID)
    (it this_ref_pkg : UUID) (p this_ref ref_pkg target : BoardPackage)
    (hnodup : ts.Nodup) (hit : it ∈ ts)
    (hne : it ≠ target_pkg) (hp : brd.at_ it = some p)
    (hfind : ToolCopyPlacement.find_this_ref_pkg brd.packages p.component.tag ref_group =
      some this_ref_pkg)
    (hq : brd.at_ this_ref_pkg = some this_ref) (hqts : this_ref_pkg ∉ ts)
    (href : brd.at_ pkg_uuid = some ref_pkg) (hrefts : pkg_uuid ∉ ts)
    (ht : brd.at_ target_pkg = some target) :
    (ToolCopyPlacement.copy_loop P pkg_uuid target_pkg ref_group brd ts).at_ it =
      some { p with
        placement := copied_placement P p.placement target.placement this_ref.placement
          ref_pkg.placement } := by
  obtain ⟨l1, l2, rfl⟩ := List.append_of_mem hit
  have hnd := List.nodup_append.mp hnodup
  have hit1 : it ∉ l1 := fun h => hnd.2.2 h (List.mem_cons_self _ _)
  have hit2 : it ∉ l2 := (List.nodup_cons.mp hnd.2.1).1
  have hq1 : this_ref_pkg ∉ l1 := fun h => hqts (List.mem_append_left _ h)
  have hr1 : pkg_uuid ∉ l1 := fun h => hrefts (List.mem_append_left _ h)
  have hqne : this_ref_pkg ≠ it := fun h => hqts (h ▸ hit)
  simp only [ToolCopyPlacement.copy_loop, List.foldl_append, List.foldl_cons]
  have hframe := ToolCopyPlacement.copy_loop_frame P pkg_uuid target_pkg ref_group
  have hcomp := ToolCopyPlacement.copy_loop_components P pkg_uuid target_pkg ref_group brd l1
  simp only [ToolCopyPlacement.copy_loop] at hframe hcomp
  rw [hframe _ l2 it (fun h => absurd h hit2)]
  have hfind1 : ToolCopyPlacement.find_this_ref_pkg
      (List.foldl (ToolCopyPlacement.copy_step P pkg_uuid target_pkg ref_group) brd l1).packages
      p.component.tag ref_group = some this_ref_pkg := by
    rw [ToolCopyPlacement.find_this_ref_pkg_components, hcomp,
      ← ToolCopyPlacement.find_this_ref_pkg_components, hfind]
  have h := ToolCopyPlacement.copy_step_value P pkg_uuid target_pkg ref_group
    (List.foldl (ToolCopyPlacement.copy_step P pkg_uuid target_pkg ref_group) brd l1)
    it this_ref_pkg p this_ref ref_pkg target hne
    ((hframe brd l1 it (fun h => absurd h hit1)).trans hp) hfind1
    ((hframe brd l1 this_ref_pkg (fun h => absurd h hq1)).trans hq) hqne
    ((hframe brd l1 pkg_uuid (fun h => absurd h hr1)).trans href)
    ((hframe brd l1 target_pkg (fun _ => rfl)).trans ht)
  rw [h]
  rfl

/-- When a package of `target_pkgs` has a component with a non-null group,
`target_group` is not null. -/
theorem ToolCopyPlacement.find_target_group_nonnull (brd : Board) (ts : List UUID)
    (h : ∃ u ∈ ts, ∃ pkg, brd.at_ u = some pkg ∧ pkg.component.group.toBool = true) :
    (ToolCopyPlacement.find_target_group brd ts).toBool = true := by
  induction ts with
  | nil => simp at h
  | cons it rest ih =>
    unfold ToolCopyPlacement.find_target_group
    obtain ⟨u, hu, pkg, hpkg, hg⟩ := h
    cases hat : brd.at_ it with
    | none =>
      dsimp only
      rcases List.mem_cons.mp hu with h1 | h1
      · rw [h1, hat] at hpkg
        cases hpkg
      · exact ih ⟨u, h1, pkg, hpkg, hg⟩
    | some pkg1 =>
      dsimp only
      by_cases hg1 : pkg1.component.group.toBool = true
      · rw [if_pos hg1]
        exact hg1
      · rw [if_neg hg1]
        rcases List.mem_cons.mp hu with h1 | h1
        · rw [h1, hat] at hpkg
          cases hpkg
          exact absurd hg hg1
        · exact ih ⟨u, h1, pkg, hpkg, hg⟩

/-- The search for `target_pkg` finds the package with the reference tag that
comes first in address order. -/
theorem ToolCopyPlacement.find_target_pkg_first (addr : UUID → Nat) (brd : Board)
    (ref_tag : UUID) (ts : List UUID) (a : UUID) (anchor : BoardPackage)
    (hts : ts.Pairwise fun x y => addr x ≤ addr y ∧ x ≠ y)
    (ha : a ∈ ts) (hat : brd.at_ a = some anchor) (htag : anchor.component.tag = ref_tag)
    (hfirst : ∀ u ∈ ts, u ≠ a → ∀ pkg, brd.at_ u = some pkg →
      pkg.component.tag = ref_tag → addr a < addr u) :
    ToolCopyPlacement.find_target_pkg brd ref_tag ts = some a := by
  induction ts with
  | nil => simp at ha
  | cons it rest ih =>
    have hp := List.pairwise_cons.mp hts
    unfold ToolCopyPlacement.find_target_pkg
    by_cases hia : it = a
    · rw [hia, hat]
      dsimp only
      rw [if_pos htag]
    · have harest : a ∈ rest := by
        rcases List.mem_cons.mp ha with h | h
        · exact absurd h.symm hia
        · exact h
      have hrec := ih hp.2 harest fun u hu => hfirst u (List.mem_cons_of_mem _ hu)
      cases hpkg : brd.at_ it with
      | none => exact hrec
      | some pkg =>
        dsimp only
        by_cases ht : pkg.component.tag = ref_tag
        · have h1 := hfirst it (List.mem_cons_self _ _) hia pkg hpkg ht
          have h2 := (hp.1 a harest).1
          omega
        · rw [if_neg ht]
          exact hrec

/-- What the search for `this_ref_pkg` finds: the key of the last entry, in map
order, whose component has the tag and the group looked for. -/
theorem ToolCopyPlacement.find_this_ref_pkg_eq_some (packages : List (UUID × BoardPackage))
    (tag ref_group k : UUID) :
    ToolCopyPlacement.find_this_ref_pkg packages tag ref_group = some k ↔
      ∃ before v after, packages = before ++ (k, v) :: after ∧
        (v.component.tag = tag ∧ v.component.group = ref_group) ∧
        ∀ kv ∈ after, ¬ (kv.2.component.tag = tag ∧ kv.2.component.group = ref_group) := by
  induction packages using List.reverseRecOn with
  | nil => simp [ToolCopyPlacement.find_this_ref_pkg]
  | append_singleton l x ih =>
    have hstep : ToolCopyPlacement.find_this_ref_pkg (l ++ [x]) tag ref_group =
        if x.2.component.tag = tag ∧ x.2.component.group = ref_group then some x.1
        else ToolCopyPlacement.find_this_ref_pkg l tag ref_group := by
      simp [ToolCopyPlacement.find_this_ref_pkg, List.foldl_append]
    rw [hstep]
    by_cases hm : x.2.component.tag = tag ∧ x.2.component.group = ref_group
    · rw [if_pos hm]
      constructor
      · intro h
        have hk : x.1 = k := Option.some.inj h
        exact ⟨l, x.2, [], by rw [← hk], hm, by simp⟩
      · rintro ⟨before, v, after, heq, _, hafter⟩
        rcases List.eq_nil_or_concat after with h | ⟨after1, y, h⟩
        · subst h
          have := List.append_inj_right' heq (by simp)
          simp only [List.cons.injEq, and_true] at this
          rw [this]
        · subst h
          have hxy : [x] = [y] := by
            have h2 : l ++ [x] = (before ++ (k, v) :: after1) ++ [y] := by
              rw [heq]; simp
            exact List.append_inj_right' h2 (by simp)
          have hy : x = y := by simpa using hxy
          exact absurd hm (hy ▸ hafter y (by simp))
    · rw [if_neg hm, ih]
      constructor
      · rintro ⟨before, v, after, heq, hv, hafter⟩
        refine ⟨before, v, after ++ [x], by rw [heq]; simp, hv, ?_⟩
        intro kv hkv
        rcases List.mem_append.mp hkv with h | h
        · exact hafter kv h
        · have : kv = x := by simpa using h
          rw [this]
          exact hm
      · rintro ⟨before, v, after, heq, hv, hafter⟩
        rcases List.eq_nil_or_concat after with h | ⟨after1, y, h⟩
        · subst h
          have := List.append_inj_right' heq (by simp)
          simp only [List.cons.injEq, and_true] at this
          rw [this] at hm
          exact absurd hv hm
        · subst h
          have h2 : l ++ [x] = (before ++ (k, v) :: after1) ++ [y] := by
            rw [heq]; simp
          have hl := List.append_inj_left' h2 (by simp)
          exact ⟨before, v, after1, hl, hv, fun kv hkv => hafter kv (by simp [hkv])⟩

/-- In a map (distinct keys) an entry is what a lookup of its key returns. -/
theorem lookup_of_mem_of_nodup_keys {V : Type} (l : List (UUID × V)) (k : UUID) (v : V)
    (hkeys : (l.map Prod.fst).Nodup) (hmem : (k, v) ∈ l) : List.lookup k l = some v := by
  induction l with
  | nil => simp at hmem
  | cons kv rest ih =>
    obtain ⟨k1, v1⟩ := kv
    rw [List.map_cons, List.nodup_cons] at hkeys
    rcases List.mem_cons.mp hmem with h | h
    · cases h
      simp [List.lookup_cons]
    · have hne : k ≠ k1 := by
        intro hk
        exact hkeys.1 (List.mem_map.mpr ⟨(k, v), h, hk⟩)
      have hb : (k == k1) = false := by simpa using hne
      simp only [List.lookup_cons, hb]
      exact ih hkeys.2 h

/-- On a board whose package map has distinct keys, the pointer the search for
`this_ref_pkg` returns leads to a package with the tag and the group looked
for. -/
theorem ToolCopyPlacement.find_this_ref_pkg_at (brd : Board) (tag ref_group k : UUID)
    (hkeys : (brd.packages.map Prod.fst).Nodup)
    (h : ToolCopyPlacement.find_this_ref_pkg brd.packages tag ref_group = some k) :
    ∃ v, brd.at_ k = some v ∧ v.component.tag = tag ∧ v.component.group = ref_group := by
  obtain ⟨before, v, after, heq, hv, _⟩ :=
    (ToolCopyPlacement.find_this_ref_pkg_eq_some brd.packages tag ref_group k).mp h
  refine ⟨v, ?_, hv.1, hv.2⟩
  exact lookup_of_mem_of_nodup_keys brd.packages k v hkeys (by rw [heq]; simp)

/-- When `set_angle` leaves the shift alone and `get_angle` reads back what
`set_angle` stored, the copied placement has the shift and the angle of lines
88 and 89, read literally. -/
theorem copied_placement_shift_angle (P : PlacementMethods) (p target this_ref ref_pkg : Placement)
    (hshift : ∀ pl a, (P.set_angle pl a).shift = pl.shift)
    (hangle : ∀ pl a, P.get_angle (P.set_angle pl a) = a) :
    (copied_placement P p target this_ref ref_pkg).shift =
        target.shift +
          P.transform (P.set_angle P.init (P.get_angle target - P.get_angle ref_pkg))
            (this_ref.shift - ref_pkg.shift) ∧
      P.get_angle (copied_placement P p target this_ref ref_pkg) =
        P.get_angle this_ref + (P.get_angle target - P.get_angle ref_pkg) := by
  simp [copied_placement, hshift, hangle]

/-- C10 (amended): on a button-1 click on a `BOARD_PACKAGE` or `PAD` target whose
`path[0]` is the reference package `ref_pkg` of the working board, with every
selected board package on the board, with `anchor` the selected package whose
component tag is the tag of `ref_pkg` (the first in address order if there are
several), provided no selected package is `ref_pkg` or belongs to its group,
and provided some selected package has a component with a non-null group:
`ToolCopyPlacement::update` calls `commit()` once and `revert()` never, returns
the end-response, and leaves a board (working and stable alike) in which every
selected package `p` other than the anchor, for which a package `this_ref` of
the group of `ref_pkg` has the tag of `p` (the last such in map order), has the
placement of lines 83-89: its shift assigned
`anchor.shift + T(this_ref.shift - ref_pkg.shift)` and then its angle set, by
`set_angle`, to `this_ref.angle + (anchor.angle - ref_pkg.angle)`, where `T` is
the transform of a default placement whose angle was set to
`anchor.angle - ref_pkg.angle` and all these values are those before the
call. -/
theorem ToolCopyPlacement.update_copy (P : PlacementMethods) (addr : UUID → Nat)
    (core : Core) (args : ToolArgs) (brd : Board) (pkg_uuid a : UUID)
    (ref_pkg anchor : BoardPackage)
    (htype : args.type = ToolEventType.CLICK) (hbutton : args.button = 1)
    (htarget : args.target.type = ObjectType.BOARD_PACKAGE ∨ args.target.type = ObjectType.PAD)
    (hpath : args.target.path.head? = some pkg_uuid)
    (hboard : core.b = some brd)
    (href : brd.at_ pkg_uuid = some ref_pkg)
    (hsel : ∀ x ∈ core.selection, x.type = ObjectType.BOARD_PACKAGE →
      (brd.at_ x.uuid).isSome = true)
    (hgroup : ∃ x ∈ core.selection, x.type = ObjectType.BOARD_PACKAGE ∧
      ∃ pkg, brd.at_ x.uuid = some pkg ∧ pkg.component.group.toBool = true)
    (hasel : (⟨a, ObjectType.BOARD_PACKAGE⟩ : SelectableRef) ∈ core.selection)
    (hanchor : brd.at_ a = some anchor)
    (hatag : anchor.component.tag = ref_pkg.component.tag)
    (hafirst : ∀ x ∈ core.selection, x.type = ObjectType.BOARD_PACKAGE → x.uuid ≠ a →
      ∀ pkg, brd.at_ x.uuid = some pkg → pkg.component.tag = ref_pkg.component.tag →
        addr a < addr x.uuid)
    (hprov : ∀ x ∈ core.selection, x.type = ObjectType.BOARD_PACKAGE →
      x.uuid ≠ pkg_uuid ∧
        ∀ pkg, brd.at_ x.uuid = some pkg → pkg.component.group ≠ ref_pkg.component.group) :
    (ToolCopyPlacement.update P addr core args).calls = [Call.commit] ∧
      (ToolCopyPlacement.update P addr core args).commits = 1 ∧
      (ToolCopyPlacement.update P addr core args).reverts = 0 ∧
      (ToolCopyPlacement.update P addr core args).outcome =
        Outcome.returned ToolResponse.end_ ∧
      ∃ brd_end, (ToolCopyPlacement.update P addr core args).core.docs =
          Docs.board brd_end brd_end ∧
        ∀ x ∈ core.selection, x.type = ObjectType.BOARD_PACKAGE → x.uuid ≠ a →
          ∀ p this_ref_pkg this_ref, brd.at_ x.uuid = some p →
            ToolCopyPlacement.find_this_ref_pkg brd.packages p.component.tag
              ref_pkg.component.group = some this_ref_pkg →
            brd.at_ this_ref_pkg = some this_ref →
            this_ref.component.group = ref_pkg.component.group →
            brd_end.at_ x.uuid = some { p with
              placement := copied_placement P p.placement anchor.placement this_ref.placement
                ref_pkg.placement } := by
  obtain ⟨ts, hts, hmem⟩ :=
    ToolCopyPlacement.collect_target_pkgs_some addr brd core.selection [] hsel
  have hmem' : ∀ u, u ∈ ts ↔ ∃ x ∈ core.selection, x.type = ObjectType.BOARD_PACKAGE ∧
      x.uuid = u := fun u => by simpa using hmem u
  have hpw := ToolCopyPlacement.collect_target_pkgs_pairwise addr brd core.selection [] ts
    List.Pairwise.nil hts
  have hnodup : ts.Nodup := hpw.imp fun h => h.2
  have hg : (ToolCopyPlacement.find_target_group brd ts).toBool = true := by
    obtain ⟨x, hx, hxt, pkg, hpkg, hgrp⟩ := hgroup
    exact ToolCopyPlacement.find_target_group_nonnull brd ts
      ⟨x.uuid, (hmem' _).mpr ⟨x, hx, hxt, rfl⟩, pkg, hpkg, hgrp⟩
  have hats : a ∈ ts := (hmem' a).mpr ⟨_, hasel, rfl, rfl⟩
  have hf : ToolCopyPlacement.find_target_pkg brd ref_pkg.component.tag ts = some a := by
    refine ToolCopyPlacement.find_target_pkg_first addr brd _ ts a anchor hpw hats hanchor hatag ?_
    intro u hu hua pkg hpkg htag
    obtain ⟨x, hx, hxt, hxu⟩ := (hmem' u).mp hu
    subst hxu
    exact hafirst x hx hxt hua pkg hpkg htag
  have hrun : ToolCopyPlacement.update P addr core args =
      { core := (core.set_board
          (ToolCopyPlacement.copy_loop P pkg_uuid a ref_pkg.component.group brd ts)).commit
        calls := [Call.commit]
        outcome := Outcome.returned ToolResponse.end_ } := by
    unfold ToolCopyPlacement.update
    rw [if_pos htype, if_pos hbutton, if_pos htarget, hpath]
    dsimp only
    rw [hboard]
    dsimp only
    rw [href]
    dsimp only
    rw [hts]
    dsimp only
    rw [hg, hf]
    rfl
  rw [hrun]
  refine ⟨rfl, by simp [Run.commits], by simp [Run.reverts], rfl,
    ToolCopyPlacement.copy_loop P pkg_uuid a ref_pkg.component.group brd ts, ?_, ?_⟩
  · cases core with
    | mk docs selection m_pool =>
      cases docs with
      | board st w => simp [Core.set_board, Core.commit]
      | symbol st w => simp [Core.b] at hboard
      | other => simp [Core.b] at hboard
  · intro x hx hxt hxa p this_ref_pkg this_ref hp hfind hq hqg
    have hxts : x.uuid ∈ ts := (hmem' _).mpr ⟨x, hx, hxt, rfl⟩
    have hqts : this_ref_pkg ∉ ts := by
      intro h
      obtain ⟨y, hy, hyt, hyu⟩ := (hmem' _).mp h
      exact (hprov y hy hyt).2 this_ref (hyu ▸ hq) hqg
    have hrefts : pkg_uuid ∉ ts := by
      intro h
      obtain ⟨y, hy, hyt, hyu⟩ := (hmem' _).mp h
      exact (hprov y hy hyt).1 hyu
    exact ToolCopyPlacement.copy_loop_value P pkg_uuid a ref_pkg.component.group brd ts x.uuid
      this_ref_pkg p this_ref ref_pkg anchor hnodup hxts hxa hp hfind hq hqts href hrefts hanchor


/-- Witness of C10 (amended): a button-1 click on package 1 of the sample board
with packages 3 (the anchor) and 4 selected moves package 4 to (100, 105) at
angle 32768. -/
theorem ToolCopyPlacement.update_copy_witness :
    (ToolCopyPlacement.update samplePlacement sampleAddr (sampleCore sampleBoard)
        (sampleClick 1)).calls = [Call.commit] ∧
      ∃ brd_end, (ToolCopyPlacement.update samplePlacement sampleAddr (sampleCore sampleBoard)
          (sampleClick 1)).core.docs = Docs.board brd_end brd_end ∧
        brd_end.at_ 4 = some (samplePackage 4 20 101 100 105 32768) := by
  have h := ToolCopyPlacement.update_copy samplePlacement sampleAddr (sampleCore sampleBoard)
    (sampleClick 1) sampleBoard 1 3 (samplePackage 1 10 100 0 0 0)
    (samplePackage 3 20 100 100 100 16384) rfl rfl (Or.inl rfl) rfl rfl rfl (by decide)
    (by decide) (by decide) rfl rfl (by decide) (by decide)
  obtain ⟨hcalls, _, _, _, brd_end, hdocs, hall⟩ := h
  refine ⟨hcalls, brd_end, hdocs, ?_⟩
  exact hall ⟨4, ObjectType.BOARD_PACKAGE⟩ (by decide) rfl (by decide)
    (samplePackage 4 20 101 7 7 0) 2 (samplePackage 2 10 101 5 0 16384) rfl rfl rfl rfl

/-- Counterexample to C10 as stated: on the sample board whose selected packages
3 and 4 are in no group, a button-1 click on package 1 meets every premise of
the claim (package 1 is the reference, package 3 the only selected package with
its tag, no selected package is package 1 or in its group 10, and package 2 of
group 10 has the tag of the selected package 4), yet `update` calls `revert()`
and not `commit()`, and package 4 keeps its placement, which is not the
copied one. -/
theorem ToolCopyPlacement.update_copy_counterexample :
    ((sampleClick 1).type = ToolEventType.CLICK ∧ (sampleClick 1).button = 1 ∧
        (sampleClick 1).target.type = ObjectType.BOARD_PACKAGE ∧
        (sampleClick 1).target.path.head? = some 1 ∧
        (sampleCore sampleBoardUngrouped).b = some sampleBoardUngrouped ∧
        sampleBoardUngrouped.at_ 1 = some (samplePackage 1 10 100 0 0 0) ∧
        (sampleCore sampleBoardUngrouped).selection =
          [⟨3, ObjectType.BOARD_PACKAGE⟩, ⟨4, ObjectType.BOARD_PACKAGE⟩] ∧
        sampleBoardUngrouped.at_ 3 = some (samplePackage 3 0 100 100 100 16384) ∧
        sampleBoardUngrouped.at_ 4 = some (samplePackage 4 0 101 7 7 0) ∧
        ToolCopyPlacement.find_this_ref_pkg sampleBoardUngrouped.packages 101 10 = some 2 ∧
        sampleBoardUngrouped.at_ 2 = some (samplePackage 2 10 101 5 0 16384)) ∧
      (ToolCopyPlacement.update samplePlacement sampleAddr (sampleCore sampleBoardUngrouped)
          (sampleClick 1)).commits = 0 ∧
      (ToolCopyPlacement.update samplePlacement sampleAddr (sampleCore sampleBoardUngrouped)
          (sampleClick 1)).reverts = 1 ∧
      (ToolCopyPlacement.update samplePlacement sampleAddr (sampleCore sampleBoardUngrouped)
          (sampleClick 1)).core.docs = Docs.board sampleBoardUngrouped sampleBoardUngrouped ∧
      (samplePackage 4 0 101 7 7 0).placement ≠
        copied_placement samplePlacement (samplePackage 4 0 101 7 7 0).placement
          (samplePackage 3 0 100 100 100 16384).placement
          (samplePackage 2 10 101 5 0 16384).placement
          (samplePackage 1 10 100 0 0 0).placement := by
  decide

/-! ## Theorems: `ToolChangeUnit::begin` -/

/-- A run of `ToolChangeUnit::begin` that returns a response either left the
core as it was or committed. -/
theorem ToolChangeUnit.begin_returned (dialog : Bool × UUID) (core : Core) (args : ToolArgs)
    (resp : ToolResponse)
    (h : (ToolChangeUnit.begin dialog core args).outcome = Outcome.returned resp) :
    (ToolChangeUnit.begin dialog core args).core = core ∨
      ((ToolChangeUnit.begin dialog core args).commits = 1 ∧
        (ToolChangeUnit.begin dialog core args).core.synced) := by
  unfold ToolChangeUnit.begin at h ⊢
  by_cases hr : dialog.1 = true
  swap
  · simp [hr]
  simp only [hr, Bool.not_true, Bool.false_eq_true, if_false] at h ⊢
  cases hu : core.m_pool.get_unit dialog.2 with
  | none => simp [hu] at h
  | some new_unit =>
    simp only [hu] at h ⊢
    cases hy : core.y with
    | none => simp [hy] at h
    | some sym =>
      simp only [hy] at h ⊢
      cases he : ToolChangeUnit.emplace_pins
          (ToolChangeUnit.build_pinmap sym.unit new_unit.pins []) sym.pins with
      | mk pins ok =>
        cases ok with
        | false => simp [he] at h
        | true =>
          simp only [he]
          exact Or.inr ⟨by simp [Run.commits], Core.synced_commit _⟩

/-- C2, the failing input: on the sample symbol core (working equals stable, the
symbol has no pin placed for pin 1 of its unit), with the dialog returning the
second sample unit, `ToolChangeUnit::begin` assigns the new unit to the working
symbol and then leaves by the exception of `sym->pins.at(old_pin)`: it has
called neither `commit()` nor `revert()`, and the working symbol differs from
the stable one. -/
theorem ToolChangeUnit.begin_throws_after_write :
    sampleSymbolCore.synced ∧
      ToolChangeUnit.begin (true, 51) sampleSymbolCore (sampleClick 0) =
        { core := { sampleSymbolCore with
            docs := Docs.symbol sampleSymbol { sampleSymbol with unit := sampleUnitNew } }
          calls := [Call.select_unit]
          outcome := Outcome.thrown } ∧
      (ToolChangeUnit.begin (true, 51) sampleSymbolCore (sampleClick 0)).commits = 0 ∧
      (ToolChangeUnit.begin (true, 51) sampleSymbolCore (sampleClick 0)).reverts = 0 ∧
      ¬ (ToolChangeUnit.begin (true, 51) sampleSymbolCore (sampleClick 0)).core.synced := by
  decide

/-! ## Theorems: `ToolCopyPlacement::update`, what it leaves alone -/

/-- A write that keeps the `uuid` and the component keeps the skeleton. -/
theorem Board.skeleton_modify (brd : Board) (u : UUID) (f : BoardPackage → BoardPackage)
    (hf : ∀ b, (f b).uuid = b.uuid ∧ (f b).component = b.component) :
    (brd.modify u f).skeleton = brd.skeleton := by
  simp only [Board.skeleton, Board.modify, List.map_map]
  apply List.map_congr_left
  intro kv _
  by_cases hk : kv.1 = u
  · simp [hk, hf]
  · simp [hk]

/-- A step adds and removes no package and writes placements only. -/
theorem ToolCopyPlacement.copy_step_skeleton (P : PlacementMethods)
    (pkg_uuid target_pkg ref_group : UUID) (brd : Board) (it : UUID) :
    (ToolCopyPlacement.copy_step P pkg_uuid target_pkg ref_group brd it).skeleton =
      brd.skeleton := by
  unfold ToolCopyPlacement.copy_step
  split_ifs with h
  · split
    · rfl
    · split
      · rfl
      · split
        · dsimp only
          split
          · rw [Board.skeleton_modify, Board.skeleton_modify]
            all_goals exact fun _ => ⟨rfl, rfl⟩
          · rw [Board.skeleton_modify]
            exact fun _ => ⟨rfl, rfl⟩
        · rfl
  · rfl

/-- The loop adds and removes no package and writes placements only. -/
theorem ToolCopyPlacement.copy_loop_skeleton (P : PlacementMethods)
    (pkg_uuid target_pkg ref_group : UUID) (brd : Board) (ts : List UUID) :
    (ToolCopyPlacement.copy_loop P pkg_uuid target_pkg ref_group brd ts).skeleton =
      brd.skeleton := by
  induction ts generalizing brd with
  | nil => rfl
  | cons it rest ih =>
    simp only [ToolCopyPlacement.copy_loop, List.foldl_cons] at ih ⊢
    rw [ih, ToolCopyPlacement.copy_step_skeleton]

/-- What a step leaves in the package it is run for: the package as it was, or
the package with its shift assigned and its angle set. -/
theorem ToolCopyPlacement.copy_step_shape (P : PlacementMethods)
    (pkg_uuid target_pkg ref_group : UUID) (brd : Board) (it : UUID) :
    (ToolCopyPlacement.copy_step P pkg_uuid target_pkg ref_group brd it).at_ it = brd.at_ it ∨
      ∃ p s ang, brd.at_ it = some p ∧
        (ToolCopyPlacement.copy_step P pkg_uuid target_pkg ref_group brd it).at_ it =
          some { p with
            placement := P.set_angle ({ p.placement with shift := s }) ang } := by
  unfold ToolCopyPlacement.copy_step
  by_cases h : it = target_pkg
  · simp [h]
  rw [if_pos h]
  cases hp : brd.at_ it with
  | none => exact Or.inl hp
  | some it_pkg =>
    dsimp only
    cases hfind : ToolCopyPlacement.find_this_ref_pkg brd.packages it_pkg.component.tag
        ref_group with
    | none => exact Or.inl hp
    | some this_ref_pkg =>
      dsimp only
      cases hq : brd.at_ this_ref_pkg with
      | none => exact Or.inl hp
      | some this_ref =>
        cases href : brd.at_ pkg_uuid with
        | none => exact Or.inl hp
        | some ref_pkg =>
          cases ht : brd.at_ target_pkg with
          | none => exact Or.inl hp
          | some target =>
            dsimp only
            rw [Board.at_modify]
            by_cases hqit : this_ref_pkg = it
            · rw [if_pos hqit, hq]
              dsimp only [Option.map_some']
              exact Or.inr ⟨it_pkg, _, _, rfl, by
                rw [Board.at_modify, if_pos rfl, Board.at_modify, if_pos rfl, hp]
                rfl⟩
            · rw [if_neg hqit, hq]
              dsimp only
              exact Or.inr ⟨it_pkg, _, _, rfl, by
                rw [Board.at_modify, if_pos rfl, Board.at_modify, if_pos rfl, hp]
                rfl⟩

/-- What the loop leaves in a package: the package as it was, or the package
with its shift assigned and its angle set (each pointer of `target_pkgs` is
visited once). -/
theorem ToolCopyPlacement.copy_loop_shape (P : PlacementMethods)
    (pkg_uuid target_pkg ref_group : UUID) (brd : Board) (ts : List UUID) (v : UUID)
    (hnodup : ts.Nodup) :
    (ToolCopyPlacement.copy_loop P pkg_uuid target_pkg ref_group brd ts).at_ v = brd.at_ v ∨
      ∃ p s ang, brd.at_ v = some p ∧
        (ToolCopyPlacement.copy_loop P pkg_uuid target_pkg ref_group brd ts).at_ v =
          some { p with
            placement := P.set_angle ({ p.placement with shift := s }) ang } := by
  by_cases hv : v ∈ ts
  swap
  · exact Or.inl (ToolCopyPlacement.copy_loop_frame P pkg_uuid target_pkg ref_group brd ts v
      (fun h => absurd h hv))
  obtain ⟨l1, l2, rfl⟩ := List.append_of_mem hv
  have hnd := List.nodup_append.mp hnodup
  have hv1 : v ∉ l1 := fun h => hnd.2.2 h (List.mem_cons_self _ _)
  have hv2 : v ∉ l2 := (List.nodup_cons.mp hnd.2.1).1
  have hframe := ToolCopyPlacement.copy_loop_frame P pkg_uuid target_pkg ref_group
  simp only [ToolCopyPlacement.copy_loop] at hframe
  simp only [ToolCopyPlacement.copy_loop, List.foldl_append, List.foldl_cons]
  rw [hframe _ l2 v (fun h => absurd h hv2)]
  have h1 := hframe brd l1 v (fun h => absurd h hv1)
  rcases ToolCopyPlacement.copy_step_shape P pkg_uuid target_pkg ref_group
    (List.foldl (ToolCopyPlacement.copy_step P pkg_uuid target_pkg ref_group) brd l1) v with
    h | ⟨p, s, ang, hp, h⟩
  · exact Or.inl (h.trans h1)
  · exact Or.inr ⟨p, s, ang, h1 ▸ hp, h⟩

/-- When no package has the tag and the group looked for, the search for
`this_ref_pkg` ends with the null pointer. -/
theorem ToolCopyPlacement.find_this_ref_pkg_none (packages : List (UUID × BoardPackage))
    (tag ref_group : UUID)
    (h : ∀ kv ∈ packages, ¬ (kv.2.component.tag = tag ∧ kv.2.component.group = ref_group)) :
    ToolCopyPlacement.find_this_ref_pkg packages tag ref_group = none := by
  cases hfind : ToolCopyPlacement.find_this_ref_pkg packages tag ref_group with
  | none => rfl
  | some k =>
    obtain ⟨before, v, after, heq, hv, _⟩ :=
      (ToolCopyPlacement.find_this_ref_pkg_eq_some packages tag ref_group k).mp hfind
    exact absurd hv (h (k, v) (by rw [heq]; simp))

/-- The loop leaves alone a package for whose tag the search for
`this_ref_pkg` finds nothing. -/
theorem ToolCopyPlacement.copy_loop_nomatch (P : PlacementMethods)
    (pkg_uuid target_pkg ref_group : UUID) (brd : Board) (ts : List UUID) (v : UUID)
    (p : BoardPackage) (hp : brd.at_ v = some p)
    (hfind : ToolCopyPlacement.find_this_ref_pkg brd.packages p.component.tag ref_group = none) :
    (ToolCopyPlacement.copy_loop P pkg_uuid target_pkg ref_group brd ts).at_ v = some p := by
  induction ts generalizing brd with
  | nil => exact hp
  | cons it rest ih =>
    simp only [ToolCopyPlacement.copy_loop, List.foldl_cons] at ih ⊢
    apply ih
    · by_cases hit : v = it
      · subst hit
        have : ToolCopyPlacement.copy_step P pkg_uuid target_pkg ref_group brd v = brd := by
          unfold ToolCopyPlacement.copy_step
          split_ifs
          · rw [hp]
            dsimp only
            rw [hfind]
          · rfl
        rw [this, hp]
      · rw [ToolCopyPlacement.copy_step_frame P pkg_uuid target_pkg ref_group brd it v hit, hp]
    · rw [ToolCopyPlacement.find_this_ref_pkg_components,
        ToolCopyPlacement.copy_step_components,
        ← ToolCopyPlacement.find_this_ref_pkg_components, hfind]

/-- When collecting `target_pkgs` does not throw, every selected board package
is on the board. -/
theorem ToolCopyPlacement.collect_target_pkgs_resolves (addr : UUID → Nat) (brd : Board)
    (sel : List SelectableRef) (acc ts : List UUID)
    (h : ToolCopyPlacement.collect_target_pkgs addr brd sel acc = some ts) :
    ∀ x ∈ sel, x.type = ObjectType.BOARD_PACKAGE → (brd.at_ x.uuid).isSome = true := by
  induction sel generalizing acc with
  | nil => simp
  | cons it rest ih =>
    unfold ToolCopyPlacement.collect_target_pkgs at h
    by_cases hty : it.type = ObjectType.BOARD_PACKAGE
    · rw [if_pos hty] at h
      cases hpkg : brd.at_ it.uuid with
      | none => simp [hpkg] at h
      | some pkg =>
        rw [hpkg] at h
        intro x hx hxt
        rcases List.mem_cons.mp hx with h1 | h1
        · rw [h1, hpkg]
          rfl
        · exact ih _ h x h1 hxt
    · rw [if_neg hty] at h
      intro x hx hxt
      rcases List.mem_cons.mp hx with h1 | h1
      · exact absurd (h1 ▸ hxt) hty
      · exact ih _ h x h1 hxt

/-- The states a run of `ToolCopyPlacement::update` can leave: the core as it
was, the reverted core, or the committed core after the copy loop ran on the
working board. -/
theorem ToolCopyPlacement.update_core_cases (P : PlacementMethods) (addr : UUID → Nat)
    (core : Core) (args : ToolArgs) :
    (ToolCopyPlacement.update P addr core args).core = core ∨
      (ToolCopyPlacement.update P addr core args).core = core.revert ∨
      ∃ brd pkg_uuid ref_pkg ts a, core.b = some brd ∧
        args.target.path.head? = some pkg_uuid ∧ brd.at_ pkg_uuid = some ref_pkg ∧
        ToolCopyPlacement.collect_target_pkgs addr brd core.selection [] = some ts ∧
        ToolCopyPlacement.find_target_pkg brd ref_pkg.component.tag ts = some a ∧
        (ToolCopyPlacement.update P addr core args).core =
          (core.set_board
            (ToolCopyPlacement.copy_loop P pkg_uuid a ref_pkg.component.group brd ts)).commit := by
  unfold ToolCopyPlacement.update
  by_cases ht : args.type = ToolEventType.CLICK
  swap
  · simp [ht]
  by_cases h1 : args.button = 1
  swap
  · by_cases h3 : args.button = 3
    · simp [ht, h3]
    · simp [ht, h1, h3]
  by_cases htt : args.target.type = ObjectType.BOARD_PACKAGE ∨ args.target.type = ObjectType.PAD
  swap
  · simp [ht, h1, htt]
  rw [if_pos ht, if_pos h1, if_pos htt]
  cases hp : args.target.path.head? with
  | none => simp
  | some pkg_uuid =>
    dsimp only
    cases hb : core.b with
    | none => simp
    | some brd =>
      dsimp only
      cases href : brd.at_ pkg_uuid with
      | none => simp
      | some ref_pkg =>
        dsimp only
        cases hc : ToolCopyPlacement.collect_target_pkgs addr brd core.selection [] with
        | none => simp
        | some target_pkgs =>
          dsimp only
          by_cases hg : (ToolCopyPlacement.find_target_group brd target_pkgs).toBool = true
          swap
          · simp [hg]
          cases hf : ToolCopyPlacement.find_target_pkg brd ref_pkg.component.tag target_pkgs with
          | none => simp [hg, hf]
          | some target_pkg =>
            refine Or.inr (Or.inr ⟨brd, pkg_uuid, ref_pkg, target_pkgs, target_pkg, rfl, rfl, href,
              hc, hf, ?_⟩)
            simp [hg, hf]

/-- A board core whose working copy equals its stable copy holds the working
board twice. -/
theorem Core.docs_of_synced_board (core : Core) (brd : Board) (hs : core.synced)
    (hb : core.b = some brd) : core.docs = Docs.board brd brd := by
  cases core with
  | mk docs selection m_pool =>
    cases docs with
    | board st w =>
      simp only [Core.synced] at hs
      simp only [Core.b, Option.some.injEq] at hb
      rw [← hb, hs]
    | symbol st w => simp [Core.b] at hb
    | other => simp [Core.b] at hb

/-- The committed state of a board core after a write of its working board. -/
theorem Core.commit_set_board (core : Core) (brd brd_end : Board) (hb : core.b = some brd) :
    (core.set_board brd_end).commit = { core with docs := Docs.board brd_end brd_end } := by
  cases core with
  | mk docs selection m_pool =>
    cases docs with
    | board st w => simp [Core.set_board, Core.commit]
    | symbol st w => simp [Core.b] at hb
    | other => simp [Core.b] at hb

/-- C11: on a core whose working copy equals its stable copy (the state in which
the tool is called), a call of `ToolCopyPlacement::update` leaves a core that
is not a board core as it was, and leaves of a board core the selection, the
pool and a board `brd_end` (working and stable alike) such that: no package is
added or removed and every package keeps its key, its `uuid` and its
component; every package is as it was or has its shift assigned and its angle
set by `set_angle`; every package that is not in the selection with type
`BOARD_PACKAGE` is as it was; and, for the reference package `ref_pkg` the
target resolves to, the anchor (the selected package with the tag of `ref_pkg`,
the first in address order if there are several) is as it was, and so is every
package for whose component tag no package of the board has that tag and the
group of `ref_pkg`. -/
theorem ToolCopyPlacement.update_frame (P : PlacementMethods) (addr : UUID → Nat)
    (core : Core) (args : ToolArgs) (hs : core.synced) :
    (core.b = none → (ToolCopyPlacement.update P addr core args).core = core) ∧
      ∀ brd, core.b = some brd →
        ∃ brd_end, (ToolCopyPlacement.update P addr core args).core =
            { core with docs := Docs.board brd_end brd_end } ∧
          brd_end.skeleton = brd.skeleton ∧
          (∀ k p_end, brd_end.at_ k = some p_end →
            ∃ p, brd.at_ k = some p ∧
              (p_end = p ∨ ∃ s ang, p_end = { p with
                placement := P.set_angle ({ p.placement with shift := s }) ang })) ∧
          (∀ k, (⟨k, ObjectType.BOARD_PACKAGE⟩ : SelectableRef) ∉ core.selection →
            brd_end.at_ k = brd.at_ k) ∧
          ∀ pkg_uuid ref_pkg, args.target.path.head? = some pkg_uuid →
            brd.at_ pkg_uuid = some ref_pkg →
              (∀ a anchor, (⟨a, ObjectType.BOARD_PACKAGE⟩ : SelectableRef) ∈ core.selection →
                brd.at_ a = some anchor →
                anchor.component.tag = ref_pkg.component.tag →
                (∀ x ∈ core.selection, x.type = ObjectType.BOARD_PACKAGE → x.uuid ≠ a →
                  ∀ pkg, brd.at_ x.uuid = some pkg →
                    pkg.component.tag = ref_pkg.component.tag → addr a < addr x.uuid) →
                brd_end.at_ a = some anchor) ∧
              ∀ k p, brd.at_ k = some p →
                (∀ kv ∈ brd.packages, ¬ (kv.2.component.tag = p.component.tag ∧
                  kv.2.component.group = ref_pkg.component.group)) →
                brd_end.at_ k = some p := by
  have hrev : core.revert = core := Core.revert_of_synced core hs
  constructor
  · intro hnone
    rcases ToolCopyPlacement.update_core_cases P addr core args with h | h | h
    · exact h
    · rw [h, hrev]
    · obtain ⟨brd, _, _, _, _, hb, _⟩ := h
      rw [hnone] at hb
      cases hb
  · intro brd hb
    have hdocs := Core.docs_of_synced_board core brd hs hb
    have hcases : (ToolCopyPlacement.update P addr core args).core = core ∨
        ∃ brd1 pkg_uuid ref_pkg ts a, core.b = some brd1 ∧
          args.target.path.head? = some pkg_uuid ∧ brd1.at_ pkg_uuid = some ref_pkg ∧
          ToolCopyPlacement.collect_target_pkgs addr brd1 core.selection [] = some ts ∧
          ToolCopyPlacement.find_target_pkg brd1 ref_pkg.component.tag ts = some a ∧
          (ToolCopyPlacement.update P addr core args).core =
            (core.set_board
              (ToolCopyPlacement.copy_loop P pkg_uuid a ref_pkg.component.group brd1
                ts)).commit := by
      rcases ToolCopyPlacement.update_core_cases P addr core args with h | h | h
      · exact Or.inl h
      · exact Or.inl (h.trans hrev)
      · exact Or.inr h
    rcases hcases with h | h
    · refine ⟨brd, ?_, rfl, fun k p_end hk => ⟨p_end, hk, Or.inl rfl⟩, fun _ _ => rfl,
        fun _ _ _ _ => ⟨fun _ _ _ ha _ _ => ha, fun _ _ hk _ => hk⟩⟩
      rw [h, ← hdocs]
    · obtain ⟨brd1, pkg_uuid, ref_pkg, ts, a, hb1, hpath, href, hts, hfind, hcore⟩ := h
      rw [hb] at hb1
      cases hb1
      have hsel := ToolCopyPlacement.collect_target_pkgs_resolves addr brd core.selection [] ts hts
      obtain ⟨ts1, hts1, hmem⟩ :=
        ToolCopyPlacement.collect_target_pkgs_some addr brd core.selection [] hsel
      rw [hts] at hts1
      cases hts1
      have hmem1 : ∀ u, u ∈ ts ↔ ∃ x ∈ core.selection, x.type = ObjectType.BOARD_PACKAGE ∧
          x.uuid = u := fun u => by simpa using hmem u
      have hpw := ToolCopyPlacement.collect_target_pkgs_pairwise addr brd core.selection [] ts
        List.Pairwise.nil hts
      have hnodup : ts.Nodup := hpw.imp fun h => h.2
      refine ⟨ToolCopyPlacement.copy_loop P pkg_uuid a ref_pkg.component.group brd ts, ?_,
        ToolCopyPlacement.copy_loop_skeleton P pkg_uuid a ref_pkg.component.group brd ts,
        ?_, ?_, ?_⟩
      · rw [hcore]
        exact Core.commit_set_board core brd _ hb
      · intro k p_end hk
        rcases ToolCopyPlacement.copy_loop_shape P pkg_uuid a ref_pkg.component.group brd ts k
          hnodup with h | ⟨p, s, ang, hp, h⟩
        · exact ⟨p_end, h ▸ hk, Or.inl rfl⟩
        · rw [h] at hk
          exact ⟨p, hp, Or.inr ⟨s, ang, (Option.some.inj hk).symm⟩⟩
      · intro k hk
        apply ToolCopyPlacement.copy_loop_frame
        intro hkts
        obtain ⟨x, hx, hxt, hxu⟩ := (hmem1 k).mp hkts
        exact absurd (by cases x; cases hxt; cases hxu; exact hx) hk
      · intro pkg_uuid1 ref_pkg1 hpath1 href1
        rw [hpath] at hpath1
        cases hpath1
        rw [href] at href1
        cases href1
        constructor
        · intro a1 anchor ha1 hanchor htag hfirst
          have ha1ts : a1 ∈ ts := (hmem1 a1).mpr ⟨_, ha1, rfl, rfl⟩
          have hfind1 := ToolCopyPlacement.find_target_pkg_first addr brd ref_pkg.component.tag
            ts a1 anchor hpw ha1ts hanchor htag (by
              intro u hu hua pkg hpkg hptag
              obtain ⟨x, hx, hxt, hxu⟩ := (hmem1 u).mp hu
              subst hxu
              exact hfirst x hx hxt hua pkg hpkg hptag)
          rw [hfind] at hfind1
          cases hfind1
          rw [ToolCopyPlacement.copy_loop_frame P pkg_uuid a ref_pkg.component.group brd ts a
            (fun _ => rfl)]
          exact hanchor
        · intro k p hk hno
          exact ToolCopyPlacement.copy_loop_nomatch P pkg_uuid a ref_pkg.component.group brd ts k
            p hk (ToolCopyPlacement.find_this_ref_pkg_none brd.packages _ _ hno)

/-- Witness of C11: the button-1 click on package 1 of the sample board, with
packages 3 and 4 selected, keeps the skeleton of the board and leaves packages
1, 2 and 3 as they were. -/
theorem ToolCopyPlacement.update_frame_witness :
    (sampleCore sampleBoard).synced ∧
      ∃ brd_end, (ToolCopyPlacement.update samplePlacement sampleAddr (sampleCore sampleBoard)
          (sampleClick 1)).core =
            { sampleCore sampleBoard with docs := Docs.board brd_end brd_end } ∧
        brd_end.skeleton = sampleBoard.skeleton ∧
        brd_end.at_ 1 = sampleBoard.at_ 1 ∧ brd_end.at_ 2 = sampleBoard.at_ 2 ∧
        brd_end.at_ 3 = some (samplePackage 3 20 100 100 100 16384) := by
  have h := (ToolCopyPlacement.update_frame samplePlacement sampleAddr (sampleCore sampleBoard)
    (sampleClick 1) (by decide)).2 sampleBoard rfl
  obtain ⟨brd_end, hcore, hsk, _, hframe, hrest⟩ := h
  refine ⟨by decide, brd_end, hcore, hsk, hframe 1 (by decide), hframe 2 (by decide), ?_⟩
  exact (hrest 1 (samplePackage 1 10 100 0 0 0) rfl rfl).1 3
    (samplePackage 3 20 100 100 100 16384) (by decide) rfl rfl (by decide)

/-! ## Theorems: `ToolChangeUnit::begin`, the pin map -/

/-- An entry of the map after `operator[]` and assignment is the assigned one
or was there before. -/
theorem ToolChangeUnit.mem_map_assign {V : Type} (k : UUID) (v : V) (l : List (UUID × V))
    (x : UUID × V) (hx : x ∈ ToolChangeUnit.map_assign k v l) : x = (k, v) ∨ x ∈ l := by
  induction l with
  | nil =>
    simp only [ToolChangeUnit.map_assign, List.mem_singleton] at hx
    exact Or.inl hx
  | cons kv rest ih =>
    unfold ToolChangeUnit.map_assign at hx
    split_ifs at hx with h1 h2
    · rcases List.mem_cons.mp hx with h | h
      · exact Or.inl h
      · exact Or.inr h
    · rcases List.mem_cons.mp hx with h | h
      · exact Or.inl h
      · exact Or.inr (List.mem_cons_of_mem _ h)
    · rcases List.mem_cons.mp hx with h | h
      · exact Or.inr (h ▸ List.mem_cons_self _ _)
      · rcases ih h with h3 | h3
        · exact Or.inl h3
        · exact Or.inr (List.mem_cons_of_mem _ h3)

/-- Every entry of `pinmap` pairs a pin of the old unit with a pin of the new
unit that has the same `primary_name`. -/
theorem ToolChangeUnit.mem_build_pinmap (old_unit : Unit) (new_pins : List (UUID × Pin))
    (acc : List (UUID × UUID)) (x : UUID × UUID)
    (hx : x ∈ ToolChangeUnit.build_pinmap old_unit new_pins acc) :
    x ∈ acc ∨ ∃ npin opin, (x.2, npin) ∈ new_pins ∧ (x.1, opin) ∈ old_unit.pins ∧
      opin.primary_name = npin.primary_name := by
  induction new_pins generalizing acc with
  | nil => exact Or.inl hx
  | cons it rest ih =>
    unfold ToolChangeUnit.build_pinmap at hx
    dsimp only at hx
    cases hfind : List.find? (fun x => x.2.primary_name == it.2.primary_name) old_unit.pins with
    | none =>
      rw [hfind] at hx
      rcases ih acc hx with h | ⟨npin, opin, h1, h2, h3⟩
      · exact Or.inl h
      · exact Or.inr ⟨npin, opin, List.mem_cons_of_mem _ h1, h2, h3⟩
    | some it_old_pin =>
      rw [hfind] at hx
      rcases ih _ hx with h | ⟨npin, opin, h1, h2, h3⟩
      · rcases ToolChangeUnit.mem_map_assign _ _ _ _ h with h4 | h4
        · have hname := List.find?_some hfind
          have hmem := List.mem_of_find?_eq_some hfind
          refine Or.inr ⟨it.2, it_old_pin.2, ?_, ?_, ?_⟩
          · rw [h4]
            exact List.mem_cons_self _ _
          · rw [h4]
            exact hmem
          · simpa using hname
        · exact Or.inl h4
      · exact Or.inr ⟨npin, opin, List.mem_cons_of_mem _ h1, h2, h3⟩

/-- An entry of the map after an `emplace` is the emplaced one or was there
before. -/
theorem ToolChangeUnit.mem_map_emplace {V : Type} (k : UUID) (v : V) (l : List (UUID × V))
    (x : UUID × V) (hx : x ∈ ToolChangeUnit.map_emplace k v l) : x = (k, v) ∨ x ∈ l := by
  induction l with
  | nil =>
    simp only [ToolChangeUnit.map_emplace, List.mem_singleton] at hx
    exact Or.inl hx
  | cons kv rest ih =>
    unfold ToolChangeUnit.map_emplace at hx
    split_ifs at hx with h1 h2
    · rcases List.mem_cons.mp hx with h | h
      · exact Or.inl h
      · exact Or.inr h
    · exact Or.inr hx
    · rcases List.mem_cons.mp hx with h | h
      · exact Or.inr (h ▸ List.mem_cons_self _ _)
      · rcases ih h with h3 | h3
        · exact Or.inl h3
        · exact Or.inr (List.mem_cons_of_mem _ h3)

/-- An `emplace` keeps the map in key order. -/
theorem ToolChangeUnit.pairwise_map_emplace {V : Type} (k : UUID) (v : V) (l : List (UUID × V))
    (hsorted : l.Pairwise fun a b => a.1 < b.1) :
    (ToolChangeUnit.map_emplace k v l).Pairwise fun a b => a.1 < b.1 := by
  induction l with
  | nil => simp [ToolChangeUnit.map_emplace]
  | cons kv rest ih =>
    have hp := List.pairwise_cons.mp hsorted
    unfold ToolChangeUnit.map_emplace
    split_ifs with h1 h2
    · refine List.pairwise_cons.mpr ⟨?_, hsorted⟩
      intro x hx
      rcases List.mem_cons.mp hx with h | h
      · rw [h]
        exact h1
      · have h3 : kv.1 < x.1 := hp.1 x h
        exact Nat.lt_trans h1 h3
    · exact hsorted
    · refine List.pairwise_cons.mpr ⟨?_, ih hp.2⟩
      intro x hx
      rcases ToolChangeUnit.mem_map_emplace k v rest x hx with h | h
      · rw [h]
        exact Nat.lt_of_le_of_ne (Nat.le_of_not_lt h1) (Ne.symm h2)
      · exact hp.1 x h

/-- An `emplace` under a key the map (in key order) already holds changes
nothing. -/
theorem ToolChangeUnit.map_emplace_of_mem {V : Type} (k : UUID) (v : V) (l : List (UUID × V))
    (hsorted : l.Pairwise fun a b => a.1 < b.1) (hk : (List.lookup k l).isSome = true) :
    ToolChangeUnit.map_emplace k v l = l := by
  induction l with
  | nil => simp at hk
  | cons kv rest ih =>
    have hp := List.pairwise_cons.mp hsorted
    obtain ⟨p, hp1, hp2⟩ := List.lookup_isSome_iff.mp hk
    have hkp : k = p.1 := by simpa using hp2
    unfold ToolChangeUnit.map_emplace
    split_ifs with h1 h2
    · exfalso
      rcases List.mem_cons.mp hp1 with h | h
      · rw [h] at hkp
        exact Nat.lt_irrefl _ (hkp ▸ h1)
      · have h3 : kv.1 < p.1 := hp.1 p h
        rw [← hkp] at h3
        exact Nat.lt_asymm h1 h3
    · rfl
    · congr 1
      apply ih hp.2
      rcases List.mem_cons.mp hp1 with h | h
      · rw [h] at hkp
        exact absurd hkp h2
      · exact List.lookup_isSome_iff.mpr ⟨p, h, hp2⟩

/-- An `emplace` leaves the lookup of every other key as it was. -/
theorem ToolChangeUnit.lookup_map_emplace_of_ne {V : Type} (k k1 : UUID) (v : V)
    (l : List (UUID × V)) (hne : k1 ≠ k) :
    List.lookup k1 (ToolChangeUnit.map_emplace k v l) = List.lookup k1 l := by
  have hb : (k1 == k) = false := by simpa using hne
  induction l with
  | nil => simp [ToolChangeUnit.map_emplace, List.lookup_cons, hb]
  | cons kv rest ih =>
    obtain ⟨k2, v2⟩ := kv
    unfold ToolChangeUnit.map_emplace
    split_ifs with h1 h2
    · rw [List.lookup_cons, hb]
    · rfl
    · rw [List.lookup_cons, List.lookup_cons, ih]

/-- An `emplace` under a key the map does not hold stores the value under that
key. -/
theorem ToolChangeUnit.lookup_map_emplace_self {V : Type} (k : UUID) (v : V)
    (l : List (UUID × V)) (hk : List.lookup k l = none) :
    List.lookup k (ToolChangeUnit.map_emplace k v l) = some v := by
  induction l with
  | nil => simp [ToolChangeUnit.map_emplace]
  | cons kv rest ih =>
    obtain ⟨k2, v2⟩ := kv
    have hk2 : ¬ k = k2 := by
      intro h
      rw [h] at hk
      simp at hk
    have hb2 : (k == k2) = false := by simpa using hk2
    have hrest : List.lookup k rest = none := by
      simpa [List.lookup_cons, hb2] using hk
    unfold ToolChangeUnit.map_emplace
    split_ifs with h1
    · simp
    · rw [List.lookup_cons, hb2]
      exact ih hrest

/-- An `emplace` into a map in key order removes and overwrites no entry. -/
theorem ToolChangeUnit.lookup_map_emplace_of_some {V : Type} (k k1 : UUID) (v w : V)
    (l : List (UUID × V)) (hsorted : l.Pairwise fun a b => a.1 < b.1)
    (hk1 : List.lookup k1 l = some w) :
    List.lookup k1 (ToolChangeUnit.map_emplace k v l) = some w := by
  by_cases hk : (List.lookup k l).isSome = true
  · rw [ToolChangeUnit.map_emplace_of_mem k v l hsorted hk, hk1]
  · have hne : k1 ≠ k := by
      intro h
      rw [h] at hk1
      rw [hk1] at hk
      exact hk rfl
    rw [ToolChangeUnit.lookup_map_emplace_of_ne k k1 v l hne, hk1]

/-- What the loop of lines 39-41 leaves when no `at` throws: a map in key order
that holds every entry it held, whose new entries are under new pins of
`pinmap`, and that is the same map when every new pin of `pinmap` was already
a key. -/
theorem ToolChangeUnit.emplace_pins_spec (pinmap : List (UUID × UUID))
    (pins pins_end : List (UUID × SymbolPin))
    (hsorted : pins.Pairwise fun a b => a.1 < b.1)
    (h : ToolChangeUnit.emplace_pins pinmap pins = (pins_end, true)) :
    (pins_end.Pairwise fun a b => a.1 < b.1) ∧
      (∀ k w, List.lookup k pins = some w → List.lookup k pins_end = some w) ∧
      (∀ k w, List.lookup k pins_end = some w →
        List.lookup k pins = some w ∨
          (List.lookup k pins = none ∧ ∃ o, (o, k) ∈ pinmap)) ∧
      ((∀ x ∈ pinmap, (List.lookup x.2 pins).isSome = true) → pins_end = pins) := by
  induction pinmap generalizing pins with
  | nil =>
    simp only [ToolChangeUnit.emplace_pins, Prod.mk.injEq, and_true] at h
    subst h
    exact ⟨hsorted, fun _ _ hk => hk, fun _ _ hk => Or.inl hk, fun _ => rfl⟩
  | cons it rest ih =>
    unfold ToolChangeUnit.emplace_pins at h
    cases hold : List.lookup it.1 pins with
    | none => simp [hold] at h
    | some pin =>
      rw [hold] at h
      dsimp only at h
      have hs1 := ToolChangeUnit.pairwise_map_emplace it.2 pin pins hsorted
      obtain ⟨h1, h2, h3, h4⟩ := ih (ToolChangeUnit.map_emplace it.2 pin pins) hs1 h
      have hkeep : ∀ k w, List.lookup k pins = some w →
          List.lookup k (ToolChangeUnit.map_emplace it.2 pin pins) = some w :=
        fun k w hk => ToolChangeUnit.lookup_map_emplace_of_some it.2 k pin w pins hsorted hk
      refine ⟨h1, fun k w hk => h2 k w (hkeep k w hk), ?_, ?_⟩
      · intro k w hk
        rcases h3 k w hk with h5 | ⟨h5, o, ho⟩
        · by_cases hin : (List.lookup it.2 pins).isSome = true
          · rw [ToolChangeUnit.map_emplace_of_mem it.2 pin pins hsorted hin] at h5
            exact Or.inl h5
          · by_cases hk2 : k = it.2
            · refine Or.inr ⟨?_, it.1, ?_⟩
              · rw [hk2]
                cases hl : List.lookup it.2 pins with
                | none => rfl
                | some x => rw [hl] at hin; exact absurd rfl hin
              · rw [hk2]
                exact List.mem_cons_self _ _
            · rw [ToolChangeUnit.lookup_map_emplace_of_ne it.2 k pin pins hk2] at h5
              exact Or.inl h5
        · refine Or.inr ⟨?_, o, List.mem_cons_of_mem _ ho⟩
          cases hl : List.lookup k pins with
          | none => rfl
          | some x =>
            rw [hkeep k x hl] at h5
            cases h5
      · intro hall
        have hin := hall it (List.mem_cons_self _ _)
        have heq := ToolChangeUnit.map_emplace_of_mem it.2 pin pins hsorted hin
        rw [heq] at h4
        exact h4 fun x hx => hall x (List.mem_cons_of_mem _ hx)

/-- The loop of lines 39-41 does not throw when every old pin of `pinmap` is a
key of the map. -/
theorem ToolChangeUnit.emplace_pins_completes (pinmap : List (UUID × UUID))
    (pins : List (UUID × SymbolPin)) (hsorted : pins.Pairwise fun a b => a.1 < b.1)
    (hall : ∀ x ∈ pinmap, (List.lookup x.1 pins).isSome = true) :
    (ToolChangeUnit.emplace_pins pinmap pins).2 = true := by
  induction pinmap generalizing pins with
  | nil => rfl
  | cons it rest ih =>
    unfold ToolChangeUnit.emplace_pins
    obtain ⟨pin, hpin⟩ := Option.isSome_iff_exists.mp (hall it (List.mem_cons_self _ _))
    rw [hpin]
    dsimp only
    apply ih _ (ToolChangeUnit.pairwise_map_emplace it.2 pin pins hsorted)
    intro x hx
    obtain ⟨w, hw⟩ := Option.isSome_iff_exists.mp (hall x (List.mem_cons_of_mem _ hx))
    rw [ToolChangeUnit.lookup_map_emplace_of_some it.2 x.1 pin w pins hsorted hw]
    rfl

/-- The committed state of a symbol core after a write of its working symbol. -/
theorem Core.commit_set_symbol (core : Core) (sym sym_end : Symbol) (hy : core.y = some sym) :
    (core.set_symbol sym_end).commit = { core with docs := Docs.symbol sym_end sym_end } := by
  cases core with
  | mk docs selection m_pool =>
    cases docs with
    | board st w => simp [Core.y] at hy
    | symbol st w => simp [Core.set_symbol, Core.commit]
    | other => simp [Core.y] at hy

/-- C12: on a symbol core whose pool holds the chosen unit `new_unit` and whose
working symbol `sym` has its pin map in key order (it is a `std::map`), a run of
`ToolChangeUnit::begin` in which the dialog returns that unit returns the
end-response whenever every pin of the old unit is placed on the symbol; and
whenever it returns, it leaves a symbol (working and stable alike) whose unit
is the chosen unit and whose pin map holds every entry it held before,
unchanged, every other entry being under a key that was not in the map and
that is a pin of the new unit with the `primary_name` of some pin of the old
unit; if every pin of the chosen unit was already a key of the pin map, the
pin map is the same as before. -/
theorem ToolChangeUnit.begin_pin_map (unit_uuid : UUID) (core : Core) (args : ToolArgs)
    (sym : Symbol) (new_unit : Unit)
    (hpool : core.m_pool.get_unit unit_uuid = some new_unit)
    (hsym : core.y = some sym)
    (hsorted : sym.pins.Pairwise fun a b => a.1 < b.1) :
    ((∀ kv ∈ sym.unit.pins, (List.lookup kv.1 sym.pins).isSome = true) →
        (ToolChangeUnit.begin (true, unit_uuid) core args).outcome =
          Outcome.returned ToolResponse.end_) ∧
      ∀ resp, (ToolChangeUnit.begin (true, unit_uuid) core args).outcome =
          Outcome.returned resp →
        ∃ sym_end, (ToolChangeUnit.begin (true, unit_uuid) core args).core =
            { core with docs := Docs.symbol sym_end sym_end } ∧
          sym_end.unit = new_unit ∧
          (∀ k pin, List.lookup k sym.pins = some pin →
            List.lookup k sym_end.pins = some pin) ∧
          (∀ k pin, List.lookup k sym_end.pins = some pin →
            List.lookup k sym.pins = some pin ∨
              (List.lookup k sym.pins = none ∧
                ∃ npin o opin, (k, npin) ∈ new_unit.pins ∧ (o, opin) ∈ sym.unit.pins ∧
                  opin.primary_name = npin.primary_name)) ∧
          ((∀ kv ∈ new_unit.pins, (List.lookup kv.1 sym.pins).isSome = true) →
            sym_end.pins = sym.pins) := by
  have hpm : ∀ x ∈ ToolChangeUnit.build_pinmap sym.unit new_unit.pins [],
      ∃ npin opin, (x.2, npin) ∈ new_unit.pins ∧ (x.1, opin) ∈ sym.unit.pins ∧
        opin.primary_name = npin.primary_name := fun x hx =>
    (ToolChangeUnit.mem_build_pinmap sym.unit new_unit.pins [] x hx).resolve_left (by simp)
  unfold ToolChangeUnit.begin
  simp only [Bool.not_true, Bool.false_eq_true, if_false, hpool, hsym]
  cases he : ToolChangeUnit.emplace_pins
      (ToolChangeUnit.build_pinmap sym.unit new_unit.pins []) sym.pins with
  | mk pins ok =>
    cases ok with
    | false =>
      dsimp only
      constructor
      · intro hall
        have := ToolChangeUnit.emplace_pins_completes
          (ToolChangeUnit.build_pinmap sym.unit new_unit.pins []) sym.pins hsorted
          (fun x hx => by
            obtain ⟨_, opin, _, ho, _⟩ := hpm x hx
            exact hall (x.1, opin) ho)
        rw [he] at this
        cases this
      · intro resp hresp
        cases hresp
    | true =>
      dsimp only
      obtain ⟨_, h2, h3, h4⟩ := ToolChangeUnit.emplace_pins_spec _ sym.pins pins hsorted he
      refine ⟨fun _ => rfl, fun resp _ => ⟨{ unit := new_unit, pins := pins }, ?_, rfl, h2, ?_, ?_⟩⟩
      · exact Core.commit_set_symbol core sym _ hsym
      · intro k pin hk
        rcases h3 k pin hk with h | ⟨h, o, ho⟩
        · exact Or.inl h
        · obtain ⟨npin, opin, hn, hold, hname⟩ := hpm (o, k) ho
          exact Or.inr ⟨h, npin, o, opin, hn, hold, hname⟩
      · intro hall
        apply h4
        intro x hx
        obtain ⟨npin, _, hn, _, _⟩ := hpm x hx
        exact hall (x.2, npin) hn

/-- Witness of C12: on the sample symbol with pin 1 placed, choosing the second
sample unit returns, sets the unit and keeps the entry of pin 1. -/
theorem ToolChangeUnit.begin_pin_map_witness :
    (ToolChangeUnit.begin (true, 51) sampleSymbolPlacedCore (sampleClick 0)).outcome =
        Outcome.returned ToolResponse.end_ ∧
      ∃ sym_end, (ToolChangeUnit.begin (true, 51) sampleSymbolPlacedCore (sampleClick 0)).core =
          { sampleSymbolPlacedCore with docs := Docs.symbol sym_end sym_end } ∧
        sym_end.unit = sampleUnitNew ∧
        List.lookup 1 sym_end.pins = some { uuid := 1, position := ⟨3, 4⟩ } := by
  have h := ToolChangeUnit.begin_pin_map 51 sampleSymbolPlacedCore (sampleClick 0)
    sampleSymbolPlaced sampleUnitNew rfl rfl (by decide)
  have hret := h.1 (by decide)
  obtain ⟨sym_end, hcore, hunit, hkeep, _, _⟩ := h.2 _ hret
  exact ⟨hret, sym_end, hcore, hunit, hkeep 1 _ rfl⟩

end horizon
